import Mathlib

/-!
# c_algos: verification development

## Part 1: the access reader (src/access_reader)

The firmware keeps a directory of access codes in a 1 MiB external flash.
Every record is a packed 36-byte `storage_block_t` (a little-endian 32-bit
expiration followed by the 32 bytes of the access code); the slot with index
`s` lives at byte offset `s * 36`.  `receive_access_code` inserts or refreshes a
record, `unlock_door` looks one up.  Both read a window of `READ_BLOCKS_SIZE`
consecutive slots that starts at `hash (access_code)`.

Modelling conventions:

* a `uint8_t` is a `Fin 256`; `uint16_t`/`uint32_t` values are natural numbers,
  and every place where the C code truncates to 32 bits carries an explicit
  `% 2 ^ 32`;
* the flash array is a function from byte addresses to bytes; `flash_write` is
  the fold of its loop body over the loop counter, `flash_read` gives the
  destination buffer after its loop;
* a RAM buffer reached through a `uint8_t *` is a function from offsets to
  bytes; the two buffers whose size is fixed by the interface (the 40-byte
  packet and the 32-byte access code) are functions on `Fin 40` and `Fin 32`;
* a procedure that mutates the flash takes the flash and returns the new one;
  what it prints on standard output is returned as a list of lines.
-/

set_option linter.unusedVariables false

namespace AccessReader

/-- A `uint8_t`. -/
abbrev Byte := Fin 256

/-- Number of bytes in the `receive_access_code` packet. -/
abbrev UPDATE_SIZE_BYTES : Nat := 40

/-- Number of bytes in the access code. -/
abbrev ACCESS_CODE_BYTES : Nat := 32

/-- Number of blocks to read at once from flash. -/
abbrev READ_BLOCKS_SIZE : Nat := 100

/-- Identifies the current door. -/
abbrev MY_DOOR_ID : Nat := 6

/-- Number of bytes of flash memory available (`1 << 20`). -/
abbrev FLASH_MEMORY_SIZE : Nat := 1 <<< 20

/-- The type `access_code_t`, an array of `ACCESS_CODE_BYTES` bytes. -/
abbrev access_code_t := Fin 32 → Byte

/-- The packed struct `storage_block_t`; `sizeof` is 36. -/
structure storage_block_t where
  expiration : Nat
  access_code : access_code_t

/-- The value of `sizeof(storage_block_t)`: the struct is packed. -/
abbrev SIZEOF_STORAGE_BLOCK : Nat := 4 + ACCESS_CODE_BYTES

/-- The packed struct `packet_t`; `sizeof` is 40. -/
structure packet_t where
  door_id : Nat
  expiration : Nat
  padding : Nat
  access_code : access_code_t

/-- Byte `k` of the little-endian representation of `v`. -/
def le_byte (v k : Nat) : Byte := ⟨(v / 256 ^ k) % 256, Nat.mod_lt _ (by decide)⟩

/-- The `uint32_t` stored little-endian in the first four bytes of a buffer. -/
def le_u32 (buf : Nat → Byte) : Nat :=
  (buf 0).val + 256 * (buf 1).val + 65536 * (buf 2).val + 16777216 * (buf 3).val

/-- The bytes seen through `(uint8_t *) &block` for a `storage_block_t`. -/
def storage_block_t.raw (b : storage_block_t) : Nat → Byte := fun k =>
  if k < 4 then le_byte b.expiration k
  else if h : k - 4 < 32 then b.access_code ⟨k - 4, h⟩
  else 0

/-- The struct obtained by `memcpy(&this_block, src, sizeof(storage_block_t))`. -/
def storage_block_t.load (src : Nat → Byte) : storage_block_t where
  expiration := le_u32 src
  access_code := fun j => src (4 + j.val)

/-- The struct obtained by `memcpy(&packet_parse, packet, sizeof(packet_t))`. -/
def packet_t.load (packet : Fin 40 → Byte) : packet_t where
  door_id := (packet 0).val + 256 * (packet 1).val
  expiration := (packet 2).val + 256 * (packet 3).val + 65536 * (packet 4).val
    + 16777216 * (packet 5).val
  padding := (packet 6).val + 256 * (packet 7).val
  access_code := fun j => packet ⟨8 + j.val, by omega⟩

/-- The bytes seen through `(uint8_t *) &packet` for a `packet_t`, as `main` passes them. -/
def packet_t.raw (q : packet_t) : Fin 40 → Byte := fun k =>
  if k.val < 2 then le_byte q.door_id k.val
  else if k.val < 6 then le_byte q.expiration (k.val - 2)
  else if h : k.val < 8 then le_byte q.padding (k.val - 6)
  else q.access_code ⟨k.val - 8, by omega⟩

/-- The function `hash` of main.c. -/
def hash (access_code : access_code_t) : Nat :=
  let some_large_hash_number := (access_code 0).val
  some_large_hash_number % (FLASH_MEMORY_SIZE / SIZEOF_STORAGE_BLOCK)

/-- The flash device: `flash_memory[address]`. -/
abbrev Flash := Nat → Byte

/-- The initial contents of the static array `flash_memory`: all zero. -/
def flash_zero : Flash := fun _ => 0

/-- The function `flash_write` of flash.c: the loop stores `src[idx]` at
`address + idx` (32-bit addition) for `idx = 0 .. length - 1`. -/
def flash_write (flash_memory : Flash) (address : Nat) (src : Nat → Byte) (length : Nat) :
    Flash :=
  (List.range length).foldl
    (fun m idx => Function.update m ((address + idx) % 2 ^ 32) (src idx)) flash_memory

/-- The function `flash_read` of flash.c: the loop stores `flash_memory[address + idx]`
(32-bit addition) in `dst[idx]` for `idx = 0 .. length - 1` and leaves the rest of `dst`
alone; the result is the buffer `dst` afterwards. -/
def flash_read (flash_memory : Flash) (address : Nat) (dst : Nat → Byte) (length : Nat) :
    Nat → Byte :=
  fun idx => if idx < length then flash_memory ((address + idx) % 2 ^ 32) else dst idx

/-- The element `storage_blocks[i]` of the window buffer, as copied out by
`memcpy(&this_block, &storage_blocks[i], sizeof(storage_block_t))`. -/
def block_at (storage_blocks : Nat → Byte) (i : Nat) : storage_block_t :=
  storage_block_t.load (fun k => storage_blocks (i * 36 + k))

/-- The library function `memcmp` on two access codes: zero when the 32 bytes agree,
otherwise the difference of the first pair of bytes that differ. -/
def memcmp (a b : access_code_t) : Int :=
  match (List.finRange 32).find? (fun j => decide (a j ≠ b j)) with
  | some j => ((a j).val : Int) - ((b j).val : Int)
  | none => 0

/-- The function `expire_block` of main.c, whose body is `// TODO` and `return;`. -/
def expire_block (flash_memory : Flash) (storage_block_idx : Nat) : Flash := flash_memory

/-- The `for` loop of `receive_access_code`, with `n` iterations left and loop counter `i`
(the loop runs while `i < READ_BLOCKS_SIZE`, so `n = READ_BLOCKS_SIZE - i`).  When no
iteration is left the function prints its failure message and returns. -/
def receive_scan (current_time : Nat) (new_block : storage_block_t) (storage_block_idx : Nat)
    (storage_blocks : Nat → Byte) : Nat → Nat → Flash → Flash × List String
  | 0, _, flash_memory => (flash_memory, ["Failed to find space for new access code\n"])
  | n + 1, i, flash_memory =>
    let this_block := block_at storage_blocks i
    if this_block.expiration = 0 then
      (flash_write flash_memory (((storage_block_idx + i) % 2 ^ 32 * 36) % 2 ^ 32)
        new_block.raw 36, [])
    else if memcmp this_block.access_code new_block.access_code = 0 then
      if this_block.expiration < new_block.expiration then
        (flash_write flash_memory (((storage_block_idx + i) % 2 ^ 32 * 36) % 2 ^ 32)
          new_block.raw 36, [])
      else
        (flash_memory, [])
    else if current_time > this_block.expiration then
      receive_scan current_time new_block storage_block_idx storage_blocks n (i + 1)
        (expire_block flash_memory ((storage_block_idx + i) % 2 ^ 32))
    else
      receive_scan current_time new_block storage_block_idx storage_blocks n (i + 1)
        flash_memory

/-- The function `receive_access_code` of main.c.  Returns the flash afterwards and the
lines printed. -/
def receive_access_code (flash_memory : Flash) (current_time : Nat) (packet : Fin 40 → Byte) :
    Flash × List String :=
  let packet_parse := packet_t.load packet
  let storage_block_idx := hash packet_parse.access_code
  if packet_parse.door_id ≠ MY_DOOR_ID ∨ packet_parse.expiration < current_time then
    (flash_memory, [])
  else
    let new_block : storage_block_t :=
      { expiration := packet_parse.expiration, access_code := packet_parse.access_code }
    let storage_blocks := flash_read flash_memory ((storage_block_idx * 36) % 2 ^ 32)
      (fun _ => 0) (READ_BLOCKS_SIZE * 36)
    receive_scan current_time new_block storage_block_idx storage_blocks READ_BLOCKS_SIZE 0
      flash_memory

/-- The `while` loop of `unlock_door`, with `n` iterations left and loop counter `i`.
When no iteration is left the function returns `false`. -/
def unlock_scan (current_time : Nat) (access_code : access_code_t) (storage_block_idx : Nat)
    (storage_blocks : Nat → Byte) : Nat → Nat → Flash → Bool × Flash
  | 0, _, flash_memory => (false, flash_memory)
  | n + 1, i, flash_memory =>
    let this_block := block_at storage_blocks i
    if this_block.expiration = 0 then
      (false, flash_memory)
    else if memcmp this_block.access_code access_code = 0 then
      (decide (current_time < this_block.expiration), flash_memory)
    else if current_time > this_block.expiration then
      unlock_scan current_time access_code storage_block_idx storage_blocks n (i + 1)
        (expire_block flash_memory ((storage_block_idx + i) % 2 ^ 32))
    else
      unlock_scan current_time access_code storage_block_idx storage_blocks n (i + 1)
        flash_memory

/-- The function `unlock_door` of main.c.  Returns the answer and the flash afterwards. -/
def unlock_door (flash_memory : Flash) (current_time : Nat) (code : access_code_t) :
    Bool × Flash :=
  let access_code : access_code_t := code
  let storage_block_idx := hash access_code
  let storage_blocks := flash_read flash_memory ((storage_block_idx * 36) % 2 ^ 32)
    (fun _ => 0) (READ_BLOCKS_SIZE * 36)
  unlock_scan current_time access_code storage_block_idx storage_blocks READ_BLOCKS_SIZE 0
    flash_memory

/-- The record stored in slot `s` of the flash: the 36 bytes at offset `s * 36`. -/
def slot (flash_memory : Flash) (s : Nat) : storage_block_t :=
  storage_block_t.load (fun k => flash_memory (s * 36 + k))

/-- The access code that `main` inserts: all zero except the first byte. -/
def code_with_first (b : Byte) : access_code_t := fun j => if j.val = 0 then b else 0

/-- The packet that `main` builds. -/
def main_packet : packet_t where
  door_id := MY_DOOR_ID
  expiration := 1000
  padding := 0
  access_code := code_with_first 101

/-- The first `i` slots of the window of `X` (slots `hash X .. hash X + i - 1`) are all
occupied, by records of credentials other than `X`: the scan for `X` walks past them. -/
def passes (m : Flash) (X : access_code_t) (i : Nat) : Prop :=
  ∀ j, j < i → (slot m (hash X + j)).expiration ≠ 0 ∧ (slot m (hash X + j)).access_code ≠ X

instance (m : Flash) (X : access_code_t) (i : Nat) : Decidable (passes m X i) := by
  unfold passes
  infer_instance

/-- The guard of `receive_access_code` lets the packet through: it is for this door and
its expiration is not before the current time. -/
def accepted (current_time : Nat) (packet : Fin 40 → Byte) : Prop :=
  (packet_t.load packet).door_id = MY_DOOR_ID
    ∧ ¬ (packet_t.load packet).expiration < current_time

instance (current_time : Nat) (packet : Fin 40 → Byte) :
    Decidable (accepted current_time packet) := by
  unfold accepted
  infer_instance

/-- The flash after a sequence of `receive_access_code` calls, each given as the pair of
its current time and its packet. -/
def receive_all (m : Flash) : List (Nat × (Fin 40 → Byte)) → Flash
  | [] => m
  | c :: rest => receive_all (receive_access_code m c.1 c.2).1 rest

/-- A call of one of the two entry points of the firmware. -/
inductive Call where
  | receive (current_time : Nat) (packet : Fin 40 → Byte)
  | unlock (current_time : Nat) (code : access_code_t)

/-- The flash after one call. -/
def run_call (m : Flash) : Call → Flash
  | Call.receive t p => (receive_access_code m t p).1
  | Call.unlock t c => (unlock_door m t c).2

/-- The flash after a sequence of calls. -/
def run_calls (m : Flash) : List Call → Flash
  | [] => m
  | c :: rest => run_calls (run_call m c) rest

/-- The flash after the first `k` of a sequence of `receive_access_code` calls on the
all-zero flash; call number `j` has current time `now j` and packet `pk j`. -/
def insert_seq (now : Nat → Nat) (pk : Nat → Fin 40 → Byte) : Nat → Flash
  | 0 => flash_zero
  | k + 1 => (receive_access_code (insert_seq now pk k) (now k) (pk k)).1

/-- An access code whose first byte is `b0` and second byte is `b1`, zero elsewhere. -/
def code_with_two (b0 b1 : Byte) : access_code_t :=
  fun j => if j.val = 0 then b0 else if j.val = 1 then b1 else 0

/-- A flash whose every byte is 1: every slot holds the record with expiration
`0x01010101` and the access code of 32 bytes 1. -/
def flash_ones : Flash := fun _ => 1

/-- A packet for this door with the expiration and access code given. -/
def door_packet (expiration : Nat) (access_code : access_code_t) : packet_t where
  door_id := MY_DOOR_ID
  expiration := expiration
  padding := 0
  access_code := access_code

/-- The packets of a capacity scenario: packet `k` carries the code whose first byte is 7
and whose second byte is `k`, with expiration 1000. -/
def capacity_packet (k : Nat) : Fin 40 → Byte :=
  (door_packet 1000 (code_with_two 7 (Fin.ofNat k))).raw

/-- The chain invariant of a flash: every occupied slot `p` lies in the window of the
credential `c` it holds, and the scan for `c` walks from `hash c` to `p` past occupied
slots that hold other credentials. -/
def chain_ok (m : Flash) : Prop :=
  ∀ p, (slot m p).expiration ≠ 0 →
    hash (slot m p).access_code ≤ p ∧ p < hash (slot m p).access_code + READ_BLOCKS_SIZE ∧
    passes m (slot m p).access_code (p - hash (slot m p).access_code)
/-- The number `N` of whole slots in the flash: `FLASH_MEMORY_SIZE / sizeof(storage_block_t)`,
the modulus of `hash`. -/
abbrev SLOT_COUNT : Nat := FLASH_MEMORY_SIZE / SIZEOF_STORAGE_BLOCK

/-- The slot index `storage_block_idx + i` (a 32-bit addition) that iteration `i` of the scan
of `receive_access_code` or `unlock_door` for the code `c` addresses. -/
def probe_index (c : access_code_t) (i : Nat) : Nat := (hash c + i) % 2 ^ 32

/-- The flash after the insert of `main` (code starting with 101, expiration 1000, received at
time 100). -/
def main_flash : Flash := (receive_access_code flash_zero 100 main_packet.raw).1

/-- Three credentials with the same home index 7, inserted in this order at time 100:
`A` and `C` expire at 1000, `B` expires at 200. -/
def abc_flash : Flash :=
  receive_all flash_zero
    [(100, (door_packet 1000 (code_with_two 7 0)).raw),
     (100, (door_packet 200 (code_with_two 7 1)).raw),
     (100, (door_packet 1000 (code_with_two 7 2)).raw)]

end AccessReader

/-!
## Part 2: merge sort (src/sort/merge_sort.c)

An `int` array is a list of integers.  An index is a natural number (the callers pass
indices from 0 up).  A read or write outside the array and an overflow of the `int` sum
`from_idx + to_idx` are undefined behaviour in C: the model then has no result (`none`).
-/

namespace MergeSort

/-- The constant `SIZE` (`1 << 5`), the length of the array `main` sorts. -/
abbrev SIZE : Nat := 1 <<< 5

/-- The assignment `a[k] = v`: no result when `k` is outside the array. -/
def store (a : List Int) (k : Nat) (v : Int) : Option (List Int) :=
  if k < a.length then some (a.set k v) else none

/-- The merge loop of `mergeSort`,
`for (i = from_idx, j = midpoint+1, k = from_idx; i <= midpoint || j <= to_idx; k++)`,
started at loop variables `i`, `j`, `k`; the result is `tmp_arr` when the loop ends.  Every
iteration but the (unreachable) one that takes neither branch advances `i` or `j`, `i` cannot
pass the end of `arr` and `j` cannot pass `to_idx + 1`, so `arr.length + to_idx + 2`
iterations are enough; the first argument counts the iterations left. -/
def merge_loop (arr : List Int) (midpoint to_idx : Nat) :
    Nat → Nat → Nat → Nat → List Int → Option (List Int)
  | 0, _, _, _, _ => none
  | fuel + 1, i, j, k, tmp_arr =>
    if i ≤ midpoint ∨ j ≤ to_idx then
      if j > to_idx then
        -- `j > to_idx ||` short-circuits: take from LHS
        match arr[i]? with
        | some x => (store tmp_arr k x).bind (merge_loop arr midpoint to_idx fuel (i + 1) j (k + 1))
        | none => none
      else
        match arr[i]?, arr[j]? with
        | some x, some y =>
          if x ≤ y then
            -- take from LHS
            (store tmp_arr k x).bind (merge_loop arr midpoint to_idx fuel (i + 1) j (k + 1))
          else if i > midpoint ∨ y < x then
            -- take from RHS
            (store tmp_arr k y).bind (merge_loop arr midpoint to_idx fuel i (j + 1) (k + 1))
          else
            merge_loop arr midpoint to_idx fuel i j (k + 1) tmp_arr
        | _, _ => none
    else
      some tmp_arr

/-- The copy loop of `mergeSort`, `for (k = from_idx; k <= to_idx; k++) arr[k] = tmp_arr[k]`,
with `n` iterations left at loop variable `k`. -/
def copy_back (tmp_arr : List Int) : Nat → Nat → List Int → Option (List Int)
  | 0, _, arr => some arr
  | n + 1, k, arr =>
    match tmp_arr[k]? with
    | some v => (store arr k v).bind (copy_back tmp_arr n (k + 1))
    | none => none

/-- The function `mergeSort`, with a bound on the depth of the recursion.  Returns the two
arrays `arr` and `tmp_arr` afterwards. -/
def mergeSort_depth : Nat → List Int → Nat → Nat → List Int → Option (List Int × List Int)
  | 0, _, _, _, _ => none
  | depth + 1, arr, from_idx, to_idx, tmp_arr =>
    -- base case: arrays of length 1 are already trivially sorted.
    if from_idx = to_idx then some (arr, tmp_arr)
    else if 2 ^ 31 ≤ from_idx + to_idx then none
    else
      let midpoint := (from_idx + to_idx) / 2
      match mergeSort_depth depth arr from_idx midpoint tmp_arr with
      | none => none
      | some (arr1, tmp1) =>
        match mergeSort_depth depth arr1 (midpoint + 1) to_idx tmp1 with
        | none => none
        | some (arr2, tmp2) =>
          match merge_loop arr2 midpoint to_idx (arr2.length + to_idx + 2)
              from_idx (midpoint + 1) from_idx tmp2 with
          | none => none
          | some tmp3 =>
            match copy_back tmp3 (to_idx + 1 - from_idx) from_idx arr2 with
            | none => none
            | some arr3 => some (arr3, tmp3)

/-- The function `mergeSort` of merge_sort.c.  A segment of `n = to_idx - from_idx + 1`
elements is split into two strictly shorter segments, so recursion depth `n` is enough. -/
def mergeSort (arr : List Int) (from_idx to_idx : Nat) (tmp_arr : List Int) :
    Option (List Int × List Int) :=
  mergeSort_depth (to_idx + 1 - from_idx) arr from_idx to_idx tmp_arr

/-- The elements `arr[from_idx .. to_idx]`. -/
def segment (arr : List Int) (from_idx to_idx : Nat) : List Int :=
  (arr.drop from_idx).take (to_idx + 1 - from_idx)

/-- The array that `main` sorts: `SIZE, SIZE - 1, ..., 1`. -/
def main_arr : List Int := (List.range SIZE).map (fun i => ((SIZE - i : Nat) : Int))

end MergeSort

/-!
## Part 3: the state path encoder (src/state_controller/state_encoder_soln.c)

The file is compiled with one of four implementations, selected by `IMPLEMENTATION`; the
functions below carry the number of the implementation they embed.

Modelling conventions:

* a C string is a `String`, the characters before the terminating NUL; `strcmp (a, b) == 0`
  is `a = b`, `strcpy` is assignment, and a character is stored in a byte as its code;
* a `state_t` keeps its name, its `num_children` and the list of the entries of
  `next_states` that are not `NULL`; a `state_graph_t` is the list of the entries of the table
  before the first entry whose name is `NULL` (the table of `main` has seven);
* a `path_t` is a function from the row index to the string stored in that row, a
  `path_encoding_t` is a function from the byte index to the byte;
* a return value of `-1` of the two search functions is `none`;
* an access outside an array is undefined behaviour in C: the model then has no result
  (`none`); the lines printed on failure are not modelled.
-/

namespace StateEncoder

/-- The constant `MAX_STATE_NAME_SIZE`. -/
abbrev MAX_STATE_NAME_SIZE : Nat := 16

/-- The constant `MAX_STATES`. -/
abbrev MAX_STATES : Nat := 100

/-- The constant `MAX_CHILDREN`. -/
abbrev MAX_CHILDREN : Nat := 4

/-- The constant `MAX_PATH_LEN`. -/
abbrev MAX_PATH_LEN : Nat := 50

/-- The struct `state_t`. -/
structure state_t where
  name : String
  num_children : Nat
  next_states : List String

/-- The type `state_graph_t`: the entries before the first one whose name is `NULL`. -/
abbrev state_graph_t := List state_t

/-- The type `path_t`: row `i` holds a C string. -/
abbrev path_t := Nat → String

/-- The type `path_encoding_t`: byte `i` of the encoding. -/
abbrev path_encoding_t := Nat → Nat

/-- The macro `LOG_1`. -/
def LOG_1 (n : Nat) : Nat := if n ≥ 2 then 1 else 0

/-- The macro `LOG_2`. -/
def LOG_2 (n : Nat) : Nat := if n ≥ 1 <<< 2 then 2 + LOG_1 (n >>> 2) else LOG_1 n

/-- The macro `LOG_4`. -/
def LOG_4 (n : Nat) : Nat := if n ≥ 1 <<< 4 then 4 + LOG_2 (n >>> 4) else LOG_2 n

/-- The macro `LOG_8`. -/
def LOG_8 (n : Nat) : Nat := if n ≥ 1 <<< 8 then 8 + LOG_4 (n >>> 8) else LOG_4 n

/-- The macro `LOG`. -/
def LOG (n : Nat) : Nat := if n ≥ 1 <<< 16 then 16 + LOG_8 (n >>> 16) else LOG_8 n

/-- The macro `BITS_TO_INDEX`: the bits required to index `n` elements. -/
def BITS_TO_INDEX (n : Nat) : Nat := if n > 1 then 1 + LOG (n - 1) else 0

/-- The constant `ENCODING_LEN` when `IMPLEMENTATION == 1`. -/
abbrev ENCODING_LEN_1 : Nat := MAX_PATH_LEN * (1 + MAX_STATE_NAME_SIZE)

/-- The constant `ENCODING_LEN` when `IMPLEMENTATION == 3`. -/
abbrev ENCODING_LEN_3 : Nat := MAX_PATH_LEN

/-- The constant `ENCODING_LEN` when `IMPLEMENTATION == 4`. -/
def ENCODING_LEN_4 : Nat := 1 + MAX_PATH_LEN * BITS_TO_INDEX MAX_CHILDREN / 8

/-- The entry `state_graph[i]`; past the named entries the table is zero. -/
def graph_at (state_graph : state_graph_t) (i : Nat) : state_t :=
  state_graph.getD i { name := "", num_children := 0, next_states := [] }

/-- The function `state_index`: the first row of `state_names` equal to `state`. -/
def state_index (state_names : Nat → String) (state : String) : Option Nat :=
  (List.range MAX_STATES).find? (fun i => decide (state_names i = state))

/-- The function `child_index`: the first `i < state.num_children` with
`state.next_states[i]` equal to `child`. -/
def child_index (state : state_t) (child : String) : Option Nat :=
  (List.range state.num_children).find? (fun i => decide (state.next_states[i]? = some child))

/-- The globals `state_names` and `_state_graph`. -/
structure encoder_globals where
  state_names : Nat → String
  _state_graph : state_graph_t

/-- The function `path_encoder_init` (implementations 3 and 4) on zeroed globals, for a
table that holds an entry whose name is `NULL`: the loop copies the name of entry `i` into
row `i` of `state_names` up to the first `NULL` name, and `memcpy` copies the table into
`_state_graph`.  The loop itself, with the end of the array, is `init_loop`. -/
def path_encoder_init (state_graph : state_graph_t) : encoder_globals where
  state_names := fun i => if i < state_graph.length then (graph_at state_graph i).name else ""
  _state_graph := state_graph

/-- The loop of `path_encoder_init`, `for (i = 0; state_graph[i].name != NULL; i++)`, at
loop variable `i`; the first argument is `MAX_STATES - i`, the entries of `state_graph` from
entry `i` on.  A named entry is copied into row `i` of `state_names`; an entry whose name
is `NULL` ends the loop.  With no entry left the test reads `state_graph[MAX_STATES]`,
outside the array: no result. -/
def init_loop (state_graph : state_graph_t) : Nat → Nat → (Nat → String) →
    Option (Nat → String)
  | 0, _, _ => none
  | entries + 1, i, state_names =>
    if i < state_graph.length then
      init_loop state_graph entries (i + 1)
        (Function.update state_names i (graph_at state_graph i).name)
    else some state_names

/-- A call of `path_encoder_init` (implementations 3 and 4) on zeroed globals: the loop over
the `MAX_STATES` entries of `state_graph`, then the `memcpy` of the table into
`_state_graph`. -/
def path_encoder_init_call (state_graph : state_graph_t) : Option encoder_globals :=
  match init_loop state_graph MAX_STATES 0 (fun _ => "") with
  | none => none
  | some state_names => some { state_names := state_names, _state_graph := state_graph }

/-- The bytes of a C string, without the terminating NUL. -/
def string_bytes (s : String) : List Nat := s.toList.map (fun c => c.toNat % 256)

/-- The C string made of the given non-zero bytes. -/
def bytes_string (l : List Nat) : String := String.mk (l.map Char.ofNat)

/-- The effect of `memcpy(&encoding[j], src, n)` for the `n` bytes of the list `src`. -/
def write_bytes (encoding : path_encoding_t) (j : Nat) : List Nat → path_encoding_t
  | [] => encoding
  | b :: rest => write_bytes (Function.update encoding j b) (j + 1) rest

/-- The bytes `encoding[j .. j + n - 1]`. -/
def read_bytes (encoding : path_encoding_t) (j n : Nat) : List Nat :=
  (List.range n).map (fun k => encoding (j + k))

/-- The loop of `path_encoder_encode` for `IMPLEMENTATION == 1`, at loop variable `i` with
`j` the next free byte; the first argument is `MAX_PATH_LEN - i`, the rows left in `path`. -/
def encode1_loop (path : path_t) : Nat → Nat → Nat → path_encoding_t →
    Option (Bool × path_encoding_t)
  | 0, _, _, _ => none
  | rows + 1, i, j, encoding =>
    if path i = "" then
      some (true, Function.update encoding 0 ((j - 1) % 256))
    else
      let len := (path i).length
      if j + len + 1 > ENCODING_LEN_1 then some (false, encoding)
      else
        encode1_loop path rows (i + 1) (j + (len + 1))
          (write_bytes encoding j (string_bytes (path i) ++ [0]))

/-- The function `path_encoder_encode` for `IMPLEMENTATION == 1`. -/
def path_encoder_encode1 (path : path_t) : Option (Bool × path_encoding_t) :=
  encode1_loop path MAX_PATH_LEN 0 1 (fun _ => 0)

/-- The loop of `path_encoder_decode` for `IMPLEMENTATION == 1`,
`for (i=1, j=0, len=0; i < encoding[0]; i++, len++)`, with `n = encoding[0] - i` iterations
left; at the end `strcpy(path[j], "")`. -/
def decode1_loop (encoding : path_encoding_t) : Nat → Nat → Nat → Int → path_t →
    Option (Bool × path_t)
  | 0, _, j, _, path =>
    if j < MAX_PATH_LEN then some (true, Function.update path j "") else none
  | n + 1, i, j, len, path =>
    if encoding i = 0 then
      if len > MAX_STATE_NAME_SIZE then some (false, path)
      else if j < MAX_PATH_LEN then
        decode1_loop encoding n (i + 1) (j + 1) (-1 + 1)
          (Function.update path j (bytes_string (read_bytes encoding (i - len.toNat) len.toNat)))
      else none
    else
      decode1_loop encoding n (i + 1) j (len + 1) path

/-- The function `path_encoder_decode` for `IMPLEMENTATION == 1`. -/
def path_encoder_decode1 (encoding : path_encoding_t) : Option (Bool × path_t) :=
  decode1_loop encoding (encoding 0 - 1) 1 0 0 (fun _ => "")

/-- The loop of `path_encoder_encode` for `IMPLEMENTATION == 3`, at loop variable `i`; the
first argument is `MAX_PATH_LEN - 1 - i`, the rows of `path` left after row `i`. -/
def encode3_loop (G : encoder_globals) (path : path_t) : Nat → Nat → path_encoding_t →
    Option (Bool × path_encoding_t)
  | 0, _, _ => none
  | rows + 1, i, encoding =>
    if path (i + 1) = "" then
      some (true, Function.update encoding 0 (i % 256))
    else
      match state_index G.state_names (path i) with
      | none => some (false, encoding)
      | some state_idx =>
        match child_index (graph_at G._state_graph state_idx) (path (i + 1)) with
        | none => some (false, encoding)
        | some child_idx =>
          encode3_loop G path rows (i + 1) (Function.update encoding (i + 1) (child_idx % 256))

/-- The function `path_encoder_encode` for `IMPLEMENTATION == 3`. -/
def path_encoder_encode3 (G : encoder_globals) (path : path_t) :
    Option (Bool × path_encoding_t) :=
  encode3_loop G path (MAX_PATH_LEN - 1) 0 (fun _ => 0)

/-- The loop of `path_encoder_decode` for `IMPLEMENTATION == 3`, at loop variable `i` with
the current state `curr`; the first argument is `MAX_PATH_LEN - i`, the rows left in
`path`. -/
def decode3_loop (G : encoder_globals) (encoding : path_encoding_t) :
    Nat → Nat → String → path_t → Option (Bool × path_t)
  | 0, _, _, _ => none
  | rows + 1, i, curr, path =>
    let path1 := Function.update path i curr
    if i = encoding 0 then some (true, path1)
    else if i + 1 ≥ ENCODING_LEN_3 then none
    else
      let child_idx := encoding (i + 1)
      match state_index G.state_names curr with
      | none => some (false, path1)
      | some state_idx =>
        if child_idx ≥ MAX_CHILDREN then none
        else
          match (graph_at G._state_graph state_idx).next_states[child_idx]? with
          | none => some (false, path1)
          | some next => decode3_loop G encoding rows (i + 1) next path1

/-- The function `path_encoder_decode` for `IMPLEMENTATION == 3`. -/
def path_encoder_decode3 (G : encoder_globals) (encoding : path_encoding_t) :
    Option (Bool × path_t) :=
  decode3_loop G encoding MAX_PATH_LEN 0 "START" (fun _ => "")

/-- The function `bit_array_set`: store the `num_bits` low order bits of `value` at bit
index `idx`.  The three arguments are `uint8_t`, reduced modulo 256 by the caller. -/
def bit_array_set (bit_array : Nat → Nat) (idx num_bits value : Nat) : Bool × (Nat → Nat) :=
  let byte_position := idx / 8
  let bit_position := idx % 8
  if num_bits > 8 then (false, bit_array)
  else
    let value_low_order_bits := (value &&& ((1 <<< num_bits) - 1)) % 256
    let value_shifted := (value_low_order_bits <<< bit_position) % 256
    let b1 := Function.update bit_array byte_position
      (bit_array byte_position &&& ((1 <<< bit_position) - 1))
    let b2 := Function.update b1 byte_position (b1 byte_position ||| value_shifted)
    let num_bits_remaining : Int := (num_bits : Int) - (8 - (bit_position : Int))
    if num_bits_remaining ≤ 0 then (true, b2)
    else
      let value_shifted2 := (value_low_order_bits >>> (8 - bit_position)) % 256
      let b3 := Function.update b2 (byte_position + 1)
        (((b2 (byte_position + 1) >>> num_bits_remaining.toNat)
          <<< num_bits_remaining.toNat) % 256)
      let b4 := Function.update b3 (byte_position + 1)
        (b3 (byte_position + 1) ||| value_shifted2)
      (true, b4)

/-- The function `bit_array_get`: the `num_bits` bits at bit index `idx`. -/
def bit_array_get (bit_array : Nat → Nat) (idx num_bits : Nat) : Nat :=
  let byte_position := idx / 8
  let bit_position := idx % 8
  let num_bits_remaining : Int := (num_bits : Int) - (8 - (bit_position : Int))
  let low_order_bits := (bit_array byte_position >>> bit_position) % 256
  if num_bits_remaining ≤ 0 then (low_order_bits &&& ((1 <<< num_bits) - 1)) % 256
  else
    let high_order_bits :=
      (bit_array (byte_position + 1) &&& ((1 <<< num_bits_remaining.toNat) - 1)) % 256
    ((high_order_bits <<< (8 - bit_position)) ||| low_order_bits) % 256

/-- The loop of `path_encoder_encode` for `IMPLEMENTATION == 4`, at loop variable `i` with
bit index `j`; the first argument is `MAX_PATH_LEN - 1 - i`.  A write of bits past the end
of the encoding has no result. -/
def encode4_loop (G : encoder_globals) (path : path_t) : Nat → Nat → Nat → path_encoding_t →
    Option (Bool × path_encoding_t)
  | 0, _, _, _ => none
  | rows + 1, i, j, encoding =>
    if path (i + 1) = "" then
      some (true, Function.update encoding 0 (((j - 8 + 7) / 8) % 256))
    else
      match state_index G.state_names (path i) with
      | none => some (false, encoding)
      | some state_idx =>
        match child_index (graph_at G._state_graph state_idx) (path (i + 1)) with
        | none => some (false, encoding)
        | some child_idx =>
          let bits_needed_to_index :=
            BITS_TO_INDEX (graph_at G._state_graph state_idx).num_children
          if bits_needed_to_index > 0 then
            if j + bits_needed_to_index > 8 * ENCODING_LEN_4 then none
            else
              encode4_loop G path rows (i + 1) (j + bits_needed_to_index)
                (bit_array_set encoding (j % 256) (bits_needed_to_index % 256)
                  (child_idx % 256)).2
          else
            encode4_loop G path rows (i + 1) j encoding

/-- The function `path_encoder_encode` for `IMPLEMENTATION == 4`. -/
def path_encoder_encode4 (G : encoder_globals) (path : path_t) :
    Option (Bool × path_encoding_t) :=
  encode4_loop G path (MAX_PATH_LEN - 1) 0 8 (fun _ => 0)

/-- The loop of `path_encoder_decode` for `IMPLEMENTATION == 4`, at loop variable `i` with
bit index `j` and current state `curr`; the first argument is `MAX_PATH_LEN - i`.  A read of
a byte past the end of the encoding has no result. -/
def decode4_loop (G : encoder_globals) (encoding : path_encoding_t) :
    Nat → Nat → Nat → String → path_t → Option (Bool × path_t)
  | 0, _, _, _, _ => none
  | rows + 1, i, j, curr, path =>
    let path1 := Function.update path i curr
    if j / 8 ≥ encoding 0 + 1 ∨ curr = "DONE" then some (true, path1)
    else
      match state_index G.state_names curr with
      | none => some (false, path1)
      | some state_idx =>
        let bits_needed_to_index :=
          BITS_TO_INDEX (graph_at G._state_graph state_idx).num_children
        if j / 8 ≥ ENCODING_LEN_4 then none
        else
          let child_idx := bit_array_get encoding (j % 256) (bits_needed_to_index % 256)
          if child_idx ≥ (graph_at G._state_graph state_idx).num_children then
            some (false, path1)
          else
            match (graph_at G._state_graph state_idx).next_states[child_idx]? with
            | none => none
            | some next =>
              decode4_loop G encoding rows (i + 1) (j + bits_needed_to_index) next path1

/-- The function `path_encoder_decode` for `IMPLEMENTATION == 4`. -/
def path_encoder_decode4 (G : encoder_globals) (encoding : path_encoding_t) :
    Option (Bool × path_t) :=
  decode4_loop G encoding MAX_PATH_LEN 0 8 "START" (fun _ => "")

/-- A `path_t` given by an initializer list: the rows listed, then empty rows. -/
def path_of (rows : List String) : path_t := fun i => rows.getD i ""

/-- The rows `path[0 .. n - 1]`. -/
def rows_of (path : path_t) (n : Nat) : List String := (List.range n).map path

/-- The state table of `main`. -/
def main_graph : state_graph_t :=
  [ { name := "START", num_children := 3, next_states := ["A", "B", "C"] },
    { name := "A", num_children := 3, next_states := ["B", "C", "FAILED"] },
    { name := "B", num_children := 1, next_states := ["D"] },
    { name := "C", num_children := 4, next_states := ["DONE", "FAILED", "A", "D"] },
    { name := "D", num_children := 4, next_states := ["A", "B", "C", "FAILED"] },
    { name := "FAILED", num_children := 1, next_states := ["DONE"] },
    { name := "DONE", num_children := 0, next_states := [] } ]

/-- The path of `main`. -/
def main_path : path_t :=
  path_of ["START", "B", "D", "A", "C", "D", "C", "A", "B", "D", "FAILED", "DONE", ""]

/-- The name `S` followed by the two decimal digits of `i`. -/
def filler_name (i : Nat) : String :=
  String.mk ['S', Char.ofNat (48 + i / 10), Char.ofNat (48 + i % 10)]

/-- A state table whose `MAX_STATES` entries are all named: `START` with the one child
`DONE`, `DONE` without children, and the 98 states `S02` .. `S99` without children. -/
def full_graph : state_graph_t :=
  [ { name := "START", num_children := 1, next_states := ["DONE"] },
    { name := "DONE", num_children := 0, next_states := [] } ] ++
  (List.range 98).map
    (fun i => { name := filler_name (i + 2), num_children := 0, next_states := [] })

/-- The path `START`, `DONE`. -/
def full_path : path_t := path_of ["START", "DONE", ""]

/-- A valid state table, as the header of the file lists it and as its `#define`s bound it:
fewer than `MAX_STATES` named entries (the table ends with an entry whose name is `NULL`),
names shorter than `MAX_STATE_NAME_SIZE`, names unique, `num_children` the length of
`next_states` and at most `MAX_CHILDREN`, every next state in the table, `START` and `DONE`
present. -/
def valid_graph (g : state_graph_t) : Prop :=
  g.length < MAX_STATES ∧
  (∀ i, i < g.length → (graph_at g i).name.length < MAX_STATE_NAME_SIZE) ∧
  (∀ i, i < g.length → ∀ j, j < g.length →
    (graph_at g i).name = (graph_at g j).name → i = j) ∧
  (∀ i, i < g.length → (graph_at g i).num_children = (graph_at g i).next_states.length
    ∧ (graph_at g i).num_children ≤ MAX_CHILDREN) ∧
  (∀ i, i < g.length → ∀ c, c ∈ (graph_at g i).next_states →
    ∃ j, j < g.length ∧ (graph_at g j).name = c) ∧
  (∃ j, j < g.length ∧ (graph_at g j).name = "START") ∧
  (∃ j, j < g.length ∧ (graph_at g j).name = "DONE")

instance (g : state_graph_t) : Decidable (valid_graph g) := by
  unfold valid_graph
  infer_instance

/-- A valid path of `n` states in the table `g`: at most `MAX_PATH_LEN - 1` states, none of
them the empty string, followed by the empty-string terminator in row `n`; the first state
is `START`, the last is `DONE`, and each state is a child of its predecessor. -/
def valid_path (g : state_graph_t) (path : path_t) (n : Nat) : Prop :=
  0 < n ∧ n < MAX_PATH_LEN ∧ path 0 = "START" ∧ path (n - 1) = "DONE" ∧ path n = "" ∧
  (∀ i, i < n → path i ≠ "") ∧
  (∀ i, i < n - 1 → ∃ k, k < g.length ∧ (graph_at g k).name = path i
    ∧ path (i + 1) ∈ (graph_at g k).next_states)

instance (g : state_graph_t) (path : path_t) (n : Nat) : Decidable (valid_path g path n) := by
  unfold valid_path
  infer_instance

/-- The number of bits that implementation 4 uses for the transition out of row `i` of the
path: `BITS_TO_INDEX` of the `num_children` of the state that `state_index` finds for
`path[i]`. -/
def transition_bits (G : encoder_globals) (path : path_t) (i : Nat) : Nat :=
  match state_index G.state_names (path i) with
  | some state_idx => BITS_TO_INDEX (graph_at G._state_graph state_idx).num_children
  | none => 0

/-- The child index that implementation 4 stores for the transition out of row `i`: what
`child_index` finds for `path[i + 1]` in the state of `path[i]`. -/
def transition_child (G : encoder_globals) (path : path_t) (i : Nat) : Nat :=
  match state_index G.state_names (path i) with
  | some state_idx =>
    (child_index (graph_at G._state_graph state_idx) (path (i + 1))).getD 0
  | none => 0

/-- The number of bits of the first `i` transitions of the path. -/
def bits_before (G : encoder_globals) (path : path_t) : Nat → Nat
  | 0 => 0
  | i + 1 => bits_before G path i + transition_bits G path i

/-- Bit `p` of the encoding read as a bit array: bit `p % 8` of byte `p / 8`. -/
def encoding_bit (encoding : path_encoding_t) (p : Nat) : Bool :=
  (encoding (p / 8)).testBit (p % 8)

end StateEncoder

/-!
## Part 4: the tree serializer (src/trees/tree_serializer_soln.c)

Modelling conventions:

* the native tree reached through a `node_t *` that `serializeTree` walks is a finite binary
  tree, an inductive `Tree`; the `NULL` pointer is `BinTree.nil`;
* an `int` is an integer; a `node_array_t` is a function from the index to the `node2_t`
  stored there, and only the indices `0 .. MAX_NODES - 1` exist: a write or read at any other
  index is undefined behaviour in C and the model then has no result (`none`);
* the memory that `deserializeTree` fills is a function from the index `k` to the `node_t`
  stored in `tree[k]`; the pointer `&tree[k]` is `some k` and `NULL` is `none`.
-/

namespace TreeSerializer

/-- A native tree: what a `node_t *` points to. -/
inductive BinTree where
  | nil : BinTree
  | node (value : Int) (left right : BinTree) : BinTree
  deriving DecidableEq

/-- The number of nodes of a tree. -/
def BinTree.size : BinTree → Nat
  | BinTree.nil => 0
  | BinTree.node _ left right => 1 + left.size + right.size

/-- The values that `printTreeInOrder` prints: left subtree, the node, right subtree. -/
def printTreeInOrder : BinTree → List Int
  | BinTree.nil => []
  | BinTree.node value left right => printTreeInOrder left ++ [value] ++ printTreeInOrder right

/-- The struct `node2_t`. -/
structure node2_t where
  value : Int
  left : Int
  right : Int
  deriving DecidableEq

/-- The struct `node_t` as `deserializeTree` stores it: the two pointers point into the
array `tree` or are `NULL`. -/
structure node_t where
  value : Int
  left : Option Int
  right : Option Int
  deriving DecidableEq

/-- The constant `MAX_NODES`, the length of a `node_array_t`. -/
abbrev MAX_NODES : Nat := 1024

/-- The macro `MIN`. -/
def MIN (a b : Int) : Int := if a < b then a else b

/-- The macro `MAX`. -/
def MAX (a b : Int) : Int := if a > b then a else b

/-- The function `serializeTree`.  Returns the value returned and the array afterwards. -/
def serializeTree : BinTree → (Int → node2_t) → Int → Option (Int × (Int → node2_t))
  | BinTree.nil, tree_array, _ => some (-1, tree_array)
  | BinTree.node value left right, tree_array, idx =>
    let left_tree_start_idx := idx + 1
    match serializeTree left tree_array left_tree_start_idx with
    | none => none
    | some (left_tree_end_idx, array1) =>
      let right_tree_start_idx := 1 + MAX idx left_tree_end_idx
      match serializeTree right array1 right_tree_start_idx with
      | none => none
      | some (right_tree_end_idx, array2) =>
        let tree_end_idx := MAX idx (MAX left_tree_end_idx right_tree_end_idx)
        let node2 : node2_t :=
          { value := value
            left := MIN left_tree_start_idx left_tree_end_idx
            right := MIN right_tree_start_idx right_tree_end_idx }
        if 0 ≤ idx ∧ idx < MAX_NODES then
          some (tree_end_idx, Function.update array2 idx node2)
        else none

/-- The loop of `deserializeTree`, `for (i = start_idx; i <= end_idx; i++)`, with `n`
iterations left at loop variable `i`. -/
def deserialize_loop (tree_array : Int → node2_t) : Nat → Int → (Int → node_t) →
    Option (Int → node_t)
  | 0, _, tree => some tree
  | n + 1, i, tree =>
    if 0 ≤ i ∧ i < MAX_NODES then
      let left_idx := (tree_array i).left
      let right_idx := (tree_array i).right
      deserialize_loop tree_array n (i + 1)
        (Function.update tree i
          { value := (tree_array i).value
            left := if left_idx = -1 then none else some left_idx
            right := if right_idx = -1 then none else some right_idx })
    else none

/-- The function `deserializeTree`.  Returns the pointer returned (`&tree[start_idx]`) and the
memory `tree` afterwards. -/
def deserializeTree (tree_array : Int → node2_t) (tree : Int → node_t)
    (start_idx end_idx : Int) : Option (Option Int × (Int → node_t)) :=
  (deserialize_loop tree_array (end_idx + 1 - start_idx).toNat start_idx tree).map
    (fun tree1 => (some start_idx, tree1))

/-- The native tree that the pointer `p` denotes in the memory `tree`, followed through at
most `depth` nodes on any branch; no result when a branch is longer. -/
def tree_at (tree : Int → node_t) : Nat → Option Int → Option BinTree
  | _, none => some BinTree.nil
  | 0, some _ => none
  | depth + 1, some p =>
    match tree_at tree depth (tree p).left, tree_at tree depth (tree p).right with
    | some left, some right => some (BinTree.node (tree p).value left right)
    | _, _ => none

/-- The test tree of `main`: 4 with left child 2 and right child 5, whose right child
is 6. -/
def main_tree : BinTree :=
  BinTree.node 4 (BinTree.node 2 BinTree.nil BinTree.nil)
    (BinTree.node 5 BinTree.nil (BinTree.node 6 BinTree.nil BinTree.nil))

/-- An array whose every entry is zero. -/
def zero_array : Int → node2_t := fun _ => { value := 0, left := 0, right := 0 }

/-- A memory whose every entry is zero, with `NULL` pointers. -/
def zero_memory : Int → node_t := fun _ => { value := 0, left := none, right := none }

/-- The pointer that `deserializeTree` stores for the child index `idx`:
`idx == -1 ? NULL : &tree[idx]`. -/
def pointer_of (idx : Int) : Option Int := if idx = -1 then none else some idx

/-- The array `tree_array` holds the tree `t` with its root in entry `i`, every entry of the
tree inside `lo .. hi - 1`; the empty tree is the index `-1`. -/
def encodes (tree_array : Int → node2_t) (lo hi : Int) : BinTree → Int → Prop
  | BinTree.nil, i => i = -1
  | BinTree.node value left right, i =>
    lo ≤ i ∧ i < hi ∧ (tree_array i).value = value ∧
    encodes tree_array lo hi left (tree_array i).left ∧
    encodes tree_array lo hi right (tree_array i).right

end TreeSerializer


namespace AccessReader

/-! ### Access reader: the flash library, the record codec and the scan loops -/

theorem hash_eq (c : access_code_t) : hash c = (c 0).val := by
  have h := (c 0).isLt
  have hn : FLASH_MEMORY_SIZE / SIZEOF_STORAGE_BLOCK = 29127 := by decide
  simp only [hash, hn]
  omega

theorem hash_lt (c : access_code_t) : hash c < 256 := by
  rw [hash_eq]; exact (c 0).isLt

theorem expire_block_eq (m : Flash) (s : Nat) : expire_block m s = m := rfl

theorem flash_write_apply (m : Flash) (address : Nat) (src : Nat → Byte) (length a : Nat)
    (h : address + length ≤ 2 ^ 32) :
    flash_write m address src length a
      = if address ≤ a ∧ a < address + length then src (a - address) else m a := by
  induction length with
  | zero =>
    simp only [flash_write, List.range_zero, List.foldl_nil]
    rw [if_neg (by omega)]
  | succ n ih =>
    have ih := ih (by omega)
    unfold flash_write at ih ⊢
    rw [List.range_succ, List.foldl_append, List.foldl_cons, List.foldl_nil,
      Function.update_apply, ih]
    have hmod : (address + n) % 2 ^ 32 = address + n := Nat.mod_eq_of_lt (by omega)
    rw [hmod]
    by_cases ha : a = address + n
    · subst ha
      simp
    · rw [if_neg ha]
      by_cases hb : address ≤ a ∧ a < address + n
      · rw [if_pos hb, if_pos ⟨hb.1, by omega⟩]
      · rw [if_neg hb, if_neg (by omega)]

theorem load_congr (f g : Nat → Byte) (h : ∀ k, k < 36 → f k = g k) :
    storage_block_t.load f = storage_block_t.load g := by
  unfold storage_block_t.load le_u32
  rw [h 0 (by omega), h 1 (by omega), h 2 (by omega), h 3 (by omega)]
  congr 1
  funext j
  exact h _ (by omega)

theorem window_block (m : Flash) (d : Nat → Byte) (h i : Nat) (hh : h < 256) (hi : i < 100) :
    block_at (flash_read m ((h * 36) % 2 ^ 32) d (READ_BLOCKS_SIZE * 36)) i
      = slot m (h + i) := by
  unfold slot block_at
  apply load_congr
  intro k hk
  simp only [flash_read, READ_BLOCKS_SIZE]
  rw [if_pos (by omega)]
  congr 1
  omega

theorem memcmp_eq_zero_iff (a b : access_code_t) : memcmp a b = 0 ↔ a = b := by
  unfold memcmp
  split
  · rename_i j hj
    have hne : a j ≠ b j := by simpa using List.find?_some hj
    constructor
    · intro h0
      exfalso
      apply hne
      apply Fin.ext
      omega
    · intro hab
      exact absurd (congrFun hab j) hne
  · rename_i hnone
    simp only [true_iff]
    funext j
    have := List.find?_eq_none.mp hnone j (List.mem_finRange j)
    simpa using this

theorem load_raw (b : storage_block_t) (hb : b.expiration < 2 ^ 32) :
    storage_block_t.load b.raw = b := by
  obtain ⟨e, c⟩ := b
  simp only at hb
  unfold storage_block_t.load
  congr 1
  · simp only [le_u32, storage_block_t.raw, le_byte]
    norm_num
    omega
  · funext j
    have hj := j.isLt
    simp only [storage_block_t.raw]
    rw [if_neg (by omega), dif_pos (by omega)]
    congr 1
    apply Fin.ext
    simp

theorem slot_flash_write (m : Flash) (s s' : Nat) (b : storage_block_t) (hs : s < 1000) :
    slot (flash_write m (s * 36) b.raw 36) s'
      = if s' = s then storage_block_t.load b.raw else slot m s' := by
  unfold slot
  by_cases h : s' = s
  · subst h
    rw [if_pos rfl]
    apply load_congr
    intro k hk
    rw [flash_write_apply _ _ _ _ _ (by omega), if_pos (by omega)]
    congr 1
    omega
  · rw [if_neg h]
    apply load_congr
    intro k hk
    rw [flash_write_apply _ _ _ _ _ (by omega), if_neg (by omega)]

theorem packet_expiration_lt (p : Fin 40 → Byte) : (packet_t.load p).expiration < 2 ^ 32 := by
  simp only [packet_t.load]
  omega

theorem slot_expiration_lt (m : Flash) (s : Nat) : (slot m s).expiration < 2 ^ 32 := by
  simp only [slot, storage_block_t.load, le_u32]
  omega

theorem slot_flash_zero (s : Nat) : slot flash_zero s = ⟨0, fun _ => 0⟩ := by
  simp [slot, storage_block_t.load, le_u32, flash_zero]

theorem scan_address (h i : Nat) (hh : h < 256) (hi : i < 100) :
    ((h + i) % 2 ^ 32 * 36) % 2 ^ 32 = (h + i) * 36 := by
  omega

theorem receive_scan_skip (t : Nat) (nb : storage_block_t) (idx : Nat) (blocks : Nat → Byte)
    (m : Flash) (d : Nat) : ∀ (n i : Nat),
    (∀ j, i ≤ j → j < i + d → (block_at blocks j).expiration ≠ 0
      ∧ (block_at blocks j).access_code ≠ nb.access_code) →
    receive_scan t nb idx blocks (d + n) i m = receive_scan t nb idx blocks n (i + d) m := by
  induction d with
  | zero => intro n i _; simp
  | succ d ih =>
    intro n i hskip
    obtain ⟨he, hc⟩ := hskip i (Nat.le_refl i) (by omega)
    have hm : ¬ memcmp (block_at blocks i).access_code nb.access_code = 0 := by
      rw [memcmp_eq_zero_iff]; exact hc
    have hstep : d + 1 + n = (d + n) + 1 := by omega
    rw [hstep, receive_scan]
    simp only [expire_block_eq, ite_self]
    rw [if_neg he, if_neg hm, ih n (i + 1) (fun j h1 h2 => hskip j (by omega) (by omega))]
    congr 1
    omega

theorem unlock_scan_skip (t : Nat) (c : access_code_t) (idx : Nat) (blocks : Nat → Byte)
    (m : Flash) (d : Nat) : ∀ (n i : Nat),
    (∀ j, i ≤ j → j < i + d → (block_at blocks j).expiration ≠ 0
      ∧ (block_at blocks j).access_code ≠ c) →
    unlock_scan t c idx blocks (d + n) i m = unlock_scan t c idx blocks n (i + d) m := by
  induction d with
  | zero => intro n i _; simp
  | succ d ih =>
    intro n i hskip
    obtain ⟨he, hc⟩ := hskip i (Nat.le_refl i) (by omega)
    have hm : ¬ memcmp (block_at blocks i).access_code c = 0 := by
      rw [memcmp_eq_zero_iff]; exact hc
    have hstep : d + 1 + n = (d + n) + 1 := by omega
    rw [hstep, unlock_scan]
    simp only [expire_block_eq, ite_self]
    rw [if_neg he, if_neg hm, ih n (i + 1) (fun j h1 h2 => hskip j (by omega) (by omega))]
    congr 1
    omega

theorem window_cases (m : Flash) (h : Nat) (X : access_code_t) :
    (∀ j, j < READ_BLOCKS_SIZE →
        (slot m (h + j)).expiration ≠ 0 ∧ (slot m (h + j)).access_code ≠ X) ∨
    ∃ i, i < READ_BLOCKS_SIZE ∧
      (∀ j, j < i → (slot m (h + j)).expiration ≠ 0 ∧ (slot m (h + j)).access_code ≠ X) ∧
      ((slot m (h + i)).expiration = 0 ∨
        ((slot m (h + i)).expiration ≠ 0 ∧ (slot m (h + i)).access_code = X)) := by
  classical
  by_cases hex : ∃ i, i < READ_BLOCKS_SIZE ∧
      ((slot m (h + i)).expiration = 0 ∨ (slot m (h + i)).access_code = X)
  · right
    refine ⟨Nat.find hex, (Nat.find_spec hex).1, ?_, ?_⟩
    · intro j hj
      have hmin := Nat.find_min hex hj
      have hjl : j < READ_BLOCKS_SIZE := Nat.lt_trans hj (Nat.find_spec hex).1
      constructor
      · intro h0; exact hmin ⟨hjl, Or.inl h0⟩
      · intro hc; exact hmin ⟨hjl, Or.inr hc⟩
    · rcases (Nat.find_spec hex).2 with h0 | hc
      · exact Or.inl h0
      · by_cases h0 : (slot m (h + Nat.find hex)).expiration = 0
        · exact Or.inl h0
        · exact Or.inr ⟨h0, hc⟩
  · left
    intro j hj
    constructor
    · intro h0; exact hex ⟨j, hj, Or.inl h0⟩
    · intro hc; exact hex ⟨j, hj, Or.inr hc⟩

theorem unlock_scan_full (t : Nat) (c : access_code_t) (idx : Nat) (blocks : Nat → Byte)
    (m : Flash)
    (hall : ∀ j, j < READ_BLOCKS_SIZE → (block_at blocks j).expiration ≠ 0
      ∧ (block_at blocks j).access_code ≠ c) :
    unlock_scan t c idx blocks READ_BLOCKS_SIZE 0 m = (false, m) := by
  have h := unlock_scan_skip t c idx blocks m READ_BLOCKS_SIZE 0 0
    (fun j _ h2 => hall j (by omega))
  rw [Nat.add_zero] at h
  rw [h, unlock_scan]

theorem unlock_scan_at_empty (t : Nat) (c : access_code_t) (idx : Nat) (blocks : Nat → Byte)
    (m : Flash) (i : Nat) (hi : i < READ_BLOCKS_SIZE)
    (hskip : ∀ j, j < i → (block_at blocks j).expiration ≠ 0
      ∧ (block_at blocks j).access_code ≠ c)
    (hempty : (block_at blocks i).expiration = 0) :
    unlock_scan t c idx blocks READ_BLOCKS_SIZE 0 m = (false, m) := by
  have hn : READ_BLOCKS_SIZE = i + ((99 - i) + 1) := by simp only [READ_BLOCKS_SIZE] at hi ⊢; omega
  rw [hn, unlock_scan_skip t c idx blocks m i _ 0 (fun j _ h2 => hskip j (by omega)),
    unlock_scan, Nat.zero_add, if_pos hempty]

theorem unlock_scan_at_match (t : Nat) (c : access_code_t) (idx : Nat) (blocks : Nat → Byte)
    (m : Flash) (i : Nat) (hi : i < READ_BLOCKS_SIZE)
    (hskip : ∀ j, j < i → (block_at blocks j).expiration ≠ 0
      ∧ (block_at blocks j).access_code ≠ c)
    (hne : (block_at blocks i).expiration ≠ 0)
    (hc : (block_at blocks i).access_code = c) :
    unlock_scan t c idx blocks READ_BLOCKS_SIZE 0 m
      = (decide (t < (block_at blocks i).expiration), m) := by
  have hn : READ_BLOCKS_SIZE = i + ((99 - i) + 1) := by simp only [READ_BLOCKS_SIZE] at hi ⊢; omega
  have hm : memcmp (block_at blocks i).access_code c = 0 := (memcmp_eq_zero_iff _ _).mpr hc
  rw [hn, unlock_scan_skip t c idx blocks m i _ 0 (fun j _ h2 => hskip j (by omega)),
    unlock_scan, Nat.zero_add, if_neg hne, if_pos hm]

theorem receive_scan_full (t : Nat) (nb : storage_block_t) (idx : Nat) (blocks : Nat → Byte)
    (m : Flash)
    (hall : ∀ j, j < READ_BLOCKS_SIZE → (block_at blocks j).expiration ≠ 0
      ∧ (block_at blocks j).access_code ≠ nb.access_code) :
    receive_scan t nb idx blocks READ_BLOCKS_SIZE 0 m
      = (m, ["Failed to find space for new access code\n"]) := by
  have h := receive_scan_skip t nb idx blocks m READ_BLOCKS_SIZE 0 0
    (fun j _ h2 => hall j (by omega))
  rw [Nat.add_zero] at h
  rw [h, receive_scan]

theorem receive_scan_at_empty (t : Nat) (nb : storage_block_t) (idx : Nat)
    (blocks : Nat → Byte) (m : Flash) (i : Nat) (hi : i < READ_BLOCKS_SIZE)
    (hskip : ∀ j, j < i → (block_at blocks j).expiration ≠ 0
      ∧ (block_at blocks j).access_code ≠ nb.access_code)
    (hempty : (block_at blocks i).expiration = 0) :
    receive_scan t nb idx blocks READ_BLOCKS_SIZE 0 m
      = (flash_write m (((idx + i) % 2 ^ 32 * 36) % 2 ^ 32) nb.raw 36, []) := by
  have hn : READ_BLOCKS_SIZE = i + ((99 - i) + 1) := by simp only [READ_BLOCKS_SIZE] at hi ⊢; omega
  rw [hn, receive_scan_skip t nb idx blocks m i _ 0 (fun j _ h2 => hskip j (by omega)),
    receive_scan, Nat.zero_add, if_pos hempty]

theorem receive_scan_at_match (t : Nat) (nb : storage_block_t) (idx : Nat)
    (blocks : Nat → Byte) (m : Flash) (i : Nat) (hi : i < READ_BLOCKS_SIZE)
    (hskip : ∀ j, j < i → (block_at blocks j).expiration ≠ 0
      ∧ (block_at blocks j).access_code ≠ nb.access_code)
    (hne : (block_at blocks i).expiration ≠ 0)
    (hc : (block_at blocks i).access_code = nb.access_code) :
    receive_scan t nb idx blocks READ_BLOCKS_SIZE 0 m
      = (if (block_at blocks i).expiration < nb.expiration
          then flash_write m (((idx + i) % 2 ^ 32 * 36) % 2 ^ 32) nb.raw 36 else m, []) := by
  have hn : READ_BLOCKS_SIZE = i + ((99 - i) + 1) := by simp only [READ_BLOCKS_SIZE] at hi ⊢; omega
  have hm : memcmp (block_at blocks i).access_code nb.access_code = 0 :=
    (memcmp_eq_zero_iff _ _).mpr hc
  rw [hn, receive_scan_skip t nb idx blocks m i _ 0 (fun j _ h2 => hskip j (by omega)),
    receive_scan, Nat.zero_add, if_neg hne, if_pos hm]
  split <;> rfl

theorem unlock_door_flash (m : Flash) (t : Nat) (X : access_code_t) :
    (unlock_door m t X).2 = m := by
  have hh := hash_lt X
  unfold unlock_door
  simp only []
  rcases window_cases m (hash X) X with hall | ⟨i, hi, hskip, hhit⟩
  · rw [unlock_scan_full]
    intro j hj
    rw [window_block m _ _ j hh hj]
    exact hall j hj
  · have hskip2 : ∀ j, j < i → (block_at (flash_read m ((hash X * 36) % 2 ^ 32) (fun _ => 0)
        (READ_BLOCKS_SIZE * 36)) j).expiration ≠ 0 ∧ (block_at (flash_read m
        ((hash X * 36) % 2 ^ 32) (fun _ => 0) (READ_BLOCKS_SIZE * 36)) j).access_code ≠ X := by
      intro j hj
      rw [window_block m _ _ j hh (by simp only [READ_BLOCKS_SIZE] at hi; omega)]
      exact hskip j hj
    rcases hhit with h0 | ⟨hne, hc⟩
    · rw [unlock_scan_at_empty _ _ _ _ _ i hi hskip2 (by rw [window_block m _ _ i hh hi]; exact h0)]
    · rw [unlock_scan_at_match _ _ _ _ _ i hi hskip2 (by rw [window_block m _ _ i hh hi]; exact hne)
        (by rw [window_block m _ _ i hh hi]; exact hc)]

theorem unlock_door_full (m : Flash) (t : Nat) (X : access_code_t)
    (hall : passes m X READ_BLOCKS_SIZE) : (unlock_door m t X).1 = false := by
  have hh := hash_lt X
  unfold unlock_door
  simp only []
  rw [unlock_scan_full]
  intro j hj
  rw [window_block m _ _ j hh hj]
  exact hall j hj

theorem unlock_door_at_empty (m : Flash) (t : Nat) (X : access_code_t) (i : Nat)
    (hi : i < READ_BLOCKS_SIZE) (hskip : passes m X i)
    (hempty : (slot m (hash X + i)).expiration = 0) : (unlock_door m t X).1 = false := by
  have hh := hash_lt X
  unfold unlock_door
  simp only []
  rw [unlock_scan_at_empty _ _ _ _ _ i hi _ (by rw [window_block m _ _ i hh hi]; exact hempty)]
  intro j hj
  rw [window_block m _ _ j hh (by simp only [READ_BLOCKS_SIZE] at hi; omega)]
  exact hskip j hj

theorem unlock_door_at_match (m : Flash) (t : Nat) (X : access_code_t) (i : Nat)
    (hi : i < READ_BLOCKS_SIZE) (hskip : passes m X i)
    (hne : (slot m (hash X + i)).expiration ≠ 0)
    (hc : (slot m (hash X + i)).access_code = X) :
    (unlock_door m t X).1 = decide (t < (slot m (hash X + i)).expiration) := by
  have hh := hash_lt X
  unfold unlock_door
  simp only []
  rw [unlock_scan_at_match _ _ _ _ _ i hi _ (by rw [window_block m _ _ i hh hi]; exact hne)
    (by rw [window_block m _ _ i hh hi]; exact hc), window_block m _ _ i hh hi]
  intro j hj
  rw [window_block m _ _ j hh (by simp only [READ_BLOCKS_SIZE] at hi; omega)]
  exact hskip j hj

theorem receive_rejected (m : Flash) (t : Nat) (p : Fin 40 → Byte) (h : ¬ accepted t p) :
    receive_access_code m t p = (m, []) := by
  unfold receive_access_code
  simp only []
  rw [if_pos]
  unfold accepted at h
  by_cases hd : (packet_t.load p).door_id = MY_DOOR_ID
  · right
    by_contra hlt
    exact h ⟨hd, hlt⟩
  · left; exact hd

theorem receive_full (m : Flash) (t : Nat) (p : Fin 40 → Byte) (ha : accepted t p)
    (hall : passes m (packet_t.load p).access_code READ_BLOCKS_SIZE) :
    receive_access_code m t p = (m, ["Failed to find space for new access code\n"]) := by
  have hh := hash_lt (packet_t.load p).access_code
  unfold receive_access_code
  simp only []
  rw [if_neg (by rintro (h | h); exact h ha.1; exact ha.2 h)]
  rw [receive_scan_full]
  intro j hj
  rw [window_block m _ _ j hh hj]
  exact hall j hj

theorem receive_at_empty (m : Flash) (t : Nat) (p : Fin 40 → Byte) (i : Nat)
    (ha : accepted t p) (hi : i < READ_BLOCKS_SIZE)
    (hskip : passes m (packet_t.load p).access_code i)
    (hempty : (slot m (hash (packet_t.load p).access_code + i)).expiration = 0) :
    receive_access_code m t p
      = (flash_write m ((hash (packet_t.load p).access_code + i) * 36)
          (storage_block_t.mk (packet_t.load p).expiration (packet_t.load p).access_code).raw
          36, []) := by
  have hh := hash_lt (packet_t.load p).access_code
  unfold receive_access_code
  simp only []
  rw [if_neg (by rintro (h | h); exact h ha.1; exact ha.2 h)]
  rw [receive_scan_at_empty _ _ _ _ _ i hi _
    (by rw [window_block m _ _ i hh hi]; exact hempty), scan_address _ _ hh hi]
  intro j hj
  rw [window_block m _ _ j hh (by simp only [READ_BLOCKS_SIZE] at hi; omega)]
  exact hskip j hj

theorem receive_at_match (m : Flash) (t : Nat) (p : Fin 40 → Byte) (i : Nat)
    (ha : accepted t p) (hi : i < READ_BLOCKS_SIZE)
    (hskip : passes m (packet_t.load p).access_code i)
    (hne : (slot m (hash (packet_t.load p).access_code + i)).expiration ≠ 0)
    (hc : (slot m (hash (packet_t.load p).access_code + i)).access_code
      = (packet_t.load p).access_code) :
    receive_access_code m t p
      = (if (slot m (hash (packet_t.load p).access_code + i)).expiration
            < (packet_t.load p).expiration
          then flash_write m ((hash (packet_t.load p).access_code + i) * 36)
            (storage_block_t.mk (packet_t.load p).expiration
              (packet_t.load p).access_code).raw 36
          else m, []) := by
  have hh := hash_lt (packet_t.load p).access_code
  unfold receive_access_code
  simp only []
  rw [if_neg (by rintro (h | h); exact h ha.1; exact ha.2 h)]
  rw [receive_scan_at_match _ _ _ _ _ i hi _
    (by rw [window_block m _ _ i hh hi]; exact hne)
    (by rw [window_block m _ _ i hh hi]; exact hc), scan_address _ _ hh hi,
    window_block m _ _ i hh hi]
  intro j hj
  rw [window_block m _ _ j hh (by simp only [READ_BLOCKS_SIZE] at hi; omega)]
  exact hskip j hj

theorem slot_write_block (m : Flash) (s s' : Nat) (b : storage_block_t) (hs : s < 1000)
    (hb : b.expiration < 2 ^ 32) :
    slot (flash_write m (s * 36) b.raw 36) s' = if s' = s then b else slot m s' := by
  rw [slot_flash_write m s s' b hs, load_raw b hb]

/-- What one call of `receive_access_code` does to the flash: nothing, or it stores the
packet's record in one slot `hash X + i` of the window, reached past `i` occupied slots of
other credentials, which was Empty or held an older record of `X`. -/
theorem receive_effect (m : Flash) (t : Nat) (p : Fin 40 → Byte) :
    (receive_access_code m t p).1 = m ∨
    ∃ i, i < READ_BLOCKS_SIZE ∧ passes m (packet_t.load p).access_code i ∧
      ¬ (packet_t.load p).expiration < t ∧
      ((slot m (hash (packet_t.load p).access_code + i)).expiration = 0 ∨
        ((slot m (hash (packet_t.load p).access_code + i)).access_code
            = (packet_t.load p).access_code ∧
          (slot m (hash (packet_t.load p).access_code + i)).expiration
            < (packet_t.load p).expiration)) ∧
      (receive_access_code m t p).1
        = flash_write m ((hash (packet_t.load p).access_code + i) * 36)
          (storage_block_t.mk (packet_t.load p).expiration
            (packet_t.load p).access_code).raw 36 := by
  by_cases ha : accepted t p
  · rcases window_cases m (hash (packet_t.load p).access_code) (packet_t.load p).access_code
      with hall | ⟨i, hi, hskip, hhit⟩
    · left
      rw [receive_full m t p ha hall]
    · rcases hhit with h0 | ⟨hne, hc⟩
      · right
        refine ⟨i, hi, hskip, ha.2, Or.inl h0, ?_⟩
        rw [receive_at_empty m t p i ha hi hskip h0]
      · rw [receive_at_match m t p i ha hi hskip hne hc]
        by_cases hlt : (slot m (hash (packet_t.load p).access_code + i)).expiration
            < (packet_t.load p).expiration
        · right
          refine ⟨i, hi, hskip, ha.2, Or.inr ⟨hc, hlt⟩, ?_⟩
          rw [if_pos hlt]
        · left
          rw [if_neg hlt]
  · left
    rw [receive_rejected m t p ha]

/-- Bytes outside the 36 bytes of slot `s` are not touched by a write of that slot. -/
theorem write_block_outside (m : Flash) (s a : Nat) (b : storage_block_t) (hs : s < 1000)
    (ha : a < s * 36 ∨ s * 36 + 36 ≤ a) :
    flash_write m (s * 36) b.raw 36 a = m a := by
  rw [flash_write_apply _ _ _ _ _ (by omega), if_neg (by omega)]

theorem passes_mono (m : Flash) (X : access_code_t) (i k : Nat) (h : passes m X i)
    (hk : k ≤ i) : passes m X k :=
  fun j hj => h j (Nat.lt_of_lt_of_le hj hk)

/-- The index of the first slot of the window that is Empty or holds `X` is unique. -/
theorem first_hit_unique (m : Flash) (X : access_code_t) (i k : Nat)
    (hi : passes m X i) (hk : passes m X k)
    (hhi : (slot m (hash X + i)).expiration = 0 ∨ (slot m (hash X + i)).access_code = X)
    (hhk : (slot m (hash X + k)).expiration = 0 ∨ (slot m (hash X + k)).access_code = X) :
    i = k := by
  rcases Nat.lt_trichotomy i k with h | h | h
  · rcases hhi with h0 | hc
    · exact absurd h0 (hk i h).1
    · exact absurd hc (hk i h).2
  · exact h
  · rcases hhk with h0 | hc
    · exact absurd h0 (hi k h).1
    · exact absurd hc (hi k h).2

theorem packet_load_raw (q : packet_t) (hd : q.door_id < 2 ^ 16) (he : q.expiration < 2 ^ 32)
    (hp : q.padding < 2 ^ 16) : packet_t.load q.raw = q := by
  obtain ⟨d, e, pad, c⟩ := q
  simp only at hd he hp
  unfold packet_t.load
  congr 1
  · simp only [packet_t.raw, le_byte]
    norm_num
    omega
  · have h2 : ((2 : Fin 40) : Nat) = 2 := rfl
    have h3 : ((3 : Fin 40) : Nat) = 3 := rfl
    have h4 : ((4 : Fin 40) : Nat) = 4 := rfl
    have h5 : ((5 : Fin 40) : Nat) = 5 := rfl
    simp only [packet_t.raw, le_byte, h2, h3, h4, h5]
    norm_num
    omega
  · have h6 : ((6 : Fin 40) : Nat) = 6 := rfl
    have h7 : ((7 : Fin 40) : Nat) = 7 := rfl
    simp only [packet_t.raw, le_byte, h6, h7]
    norm_num
    omega
  · funext j
    have hj := j.isLt
    simp only [packet_t.raw]
    rw [if_neg (by omega), if_neg (by omega), dif_neg (by omega)]
    congr 1
    apply Fin.ext
    simp

theorem main_packet_load : packet_t.load main_packet.raw = main_packet :=
  packet_load_raw main_packet (by decide) (by decide) (by decide)

/-- The answer of `unlock_door` is true exactly when the scan meets a record of `X` with an
expiration later than `t` before any Empty slot, inside the window. -/
theorem unlock_door_true_iff (m : Flash) (t : Nat) (X : access_code_t) :
    (unlock_door m t X).1 = true ↔
      ∃ i, i < READ_BLOCKS_SIZE ∧ passes m X i ∧
        (slot m (hash X + i)).access_code = X ∧ t < (slot m (hash X + i)).expiration := by
  rcases window_cases m (hash X) X with hall | ⟨i, hi, hskip, hhit⟩
  · rw [unlock_door_full m t X hall]
    constructor
    · intro h; exact absurd h (by decide)
    · rintro ⟨k, hk, _, hc, _⟩
      exact absurd hc (hall k hk).2
  · rcases hhit with h0 | ⟨hne, hc⟩
    · rw [unlock_door_at_empty m t X i hi hskip h0]
      constructor
      · intro h; exact absurd h (by decide)
      · rintro ⟨k, hk, hpk, hck, htk⟩
        have hik := first_hit_unique m X i k hskip hpk (Or.inl h0) (Or.inr hck)
        subst hik
        omega
    · rw [unlock_door_at_match m t X i hi hskip hne hc]
      constructor
      · intro h
        exact ⟨i, hi, hskip, hc, of_decide_eq_true h⟩
      · rintro ⟨k, hk, hpk, hck, htk⟩
        have hik := first_hit_unique m X i k hskip hpk (Or.inr hc) (Or.inr hck)
        subst hik
        exact decide_eq_true htk

theorem code_with_first_ne (a b : Byte) (h : a ≠ b) : code_with_first a ≠ code_with_first b := by
  intro heq
  have h0 := congrFun heq 0
  simp only [code_with_first] at h0
  exact h (by simpa using h0)

/-- The flash after the insert of `main`: the record is in slot 101, all else is Empty. -/
theorem main_flash_slot (s : Nat) :
    slot (receive_access_code flash_zero 100 main_packet.raw).1 s
      = if s = 101 then storage_block_t.mk 1000 (code_with_first 101)
        else storage_block_t.mk 0 (fun _ => 0) := by
  have ha : accepted 100 main_packet.raw := by
    unfold accepted; rw [main_packet_load]; decide
  have hx : hash (packet_t.load main_packet.raw).access_code + 0 = 101 := by
    rw [main_packet_load, hash_eq]; rfl
  rw [receive_at_empty flash_zero 100 main_packet.raw 0 ha (by decide)
    (fun j hj => absurd hj (Nat.not_lt_zero j)) (by rw [slot_flash_zero]), hx,
    slot_write_block _ _ _ _ (by decide) (by rw [main_packet_load]; decide),
    slot_flash_zero, main_packet_load]
  rfl

/-- No record of `Y` anywhere: preserved by every `receive_access_code` for another code. -/
theorem receive_no_record (m : Flash) (t : Nat) (p : Fin 40 → Byte) (Y : access_code_t)
    (hY : (packet_t.load p).access_code ≠ Y)
    (hm : ∀ s, (slot m s).expiration = 0 ∨ (slot m s).access_code ≠ Y) :
    ∀ s, (slot (receive_access_code m t p).1 s).expiration = 0
      ∨ (slot (receive_access_code m t p).1 s).access_code ≠ Y := by
  intro s
  rcases receive_effect m t p with h | ⟨i, hi, _, _, _, h⟩
  · rw [h]; exact hm s
  · have hh := hash_lt (packet_t.load p).access_code
    rw [h, slot_write_block m _ s _ (by simp only [READ_BLOCKS_SIZE] at hi; omega)
      (packet_expiration_lt p)]
    by_cases hs : s = hash (packet_t.load p).access_code + i
    · rw [if_pos hs]; exact Or.inr hY
    · rw [if_neg hs]; exact hm s

theorem receive_all_no_record (Y : access_code_t) :
    ∀ (calls : List (Nat × (Fin 40 → Byte))) (m : Flash),
    (∀ c, c ∈ calls → (packet_t.load c.2).access_code ≠ Y) →
    (∀ s, (slot m s).expiration = 0 ∨ (slot m s).access_code ≠ Y) →
    ∀ s, (slot (receive_all m calls) s).expiration = 0
      ∨ (slot (receive_all m calls) s).access_code ≠ Y := by
  intro calls
  induction calls with
  | nil => intro m _ hm; exact hm
  | cons c rest ih =>
    intro m hY hm
    unfold receive_all
    exact ih _ (fun c' hc' => hY c' (List.mem_cons_of_mem c hc'))
      (receive_no_record m c.1 c.2 Y (hY c (List.mem_cons_self c rest)) hm)

theorem flash_ones_slot (s : Nat) :
    slot flash_ones s = storage_block_t.mk 16843009 (fun _ => 1) := by
  simp [slot, storage_block_t.load, le_u32, flash_ones]

theorem flash_ones_full (X : access_code_t) (hX : X ≠ fun _ => 1) (i : Nat) :
    passes flash_ones X i := by
  intro j _
  rw [flash_ones_slot]
  exact ⟨by decide, fun h => hX h.symm⟩

theorem code_with_first_ne_ones (b : Byte) : code_with_first b ≠ fun _ => 1 := by
  intro h
  have h1 := congrFun h 1
  simp [code_with_first] at h1

theorem door_packet_load (e : Nat) (c : access_code_t) (he : e < 2 ^ 32) :
    packet_t.load (door_packet e c).raw = door_packet e c :=
  packet_load_raw (door_packet e c) (by simp [door_packet, MY_DOOR_ID]) he
    (by simp [door_packet])

theorem door_packet_accepted (now e : Nat) (c : access_code_t) (he : e < 2 ^ 32)
    (hnow : now ≤ e) : accepted now (door_packet e c).raw := by
  unfold accepted
  rw [door_packet_load e c he]
  exact ⟨rfl, by simp only [door_packet]; omega⟩

/-- The chain invariant survives every call of `receive_access_code`. -/
theorem receive_chain_ok (m : Flash) (t : Nat) (p : Fin 40 → Byte) (hm : chain_ok m) :
    chain_ok (receive_access_code m t p).1 := by
  rcases receive_effect m t p with h | ⟨i, hi, hskip, _, hhit, h⟩
  · rw [h]; exact hm
  · have hh := hash_lt (packet_t.load p).access_code
    have hslot : ∀ s, slot (receive_access_code m t p).1 s
        = if s = hash (packet_t.load p).access_code + i
          then storage_block_t.mk (packet_t.load p).expiration (packet_t.load p).access_code
          else slot m s := by
      intro s
      rw [h]
      exact slot_write_block m _ s _ (by simp only [READ_BLOCKS_SIZE] at hi; omega)
        (packet_expiration_lt p)
    intro q hq
    by_cases hqs : q = hash (packet_t.load p).access_code + i
    · subst hqs
      rw [hslot, if_pos rfl]
      simp only
      refine ⟨by omega, by omega, ?_⟩
      intro j hj
      rw [hslot, if_neg (by omega)]
      exact hskip j (by omega)
    · rw [hslot, if_neg hqs] at hq ⊢
      obtain ⟨h1, h2, h3⟩ := hm q hq
      refine ⟨h1, h2, ?_⟩
      intro j hj
      rw [hslot]
      by_cases hjs : hash (slot m q).access_code + j = hash (packet_t.load p).access_code + i
      · rw [if_pos hjs]
        have hold := h3 j hj
        rw [hjs] at hold
        rcases hhit with h0 | ⟨hc, hlt⟩
        · exact absurd h0 hold.1
        · simp only
          constructor
          · omega
          · rw [← hc]; exact hold.2
      · rw [if_neg hjs]
        exact h3 j hj

theorem chain_ok_zero : chain_ok flash_zero := by
  intro p hp
  rw [slot_flash_zero] at hp
  exact absurd rfl hp

theorem run_calls_chain_ok : ∀ (calls : List Call) (m : Flash), chain_ok m →
    chain_ok (run_calls m calls) := by
  intro calls
  induction calls with
  | nil => intro m hm; exact hm
  | cons c rest ih =>
    intro m hm
    unfold run_calls
    apply ih
    cases c with
    | receive t p => exact receive_chain_ok m t p hm
    | unlock t code =>
      show chain_ok (unlock_door m t code).2
      rw [unlock_door_flash]
      exact hm

/-- In a flash with the chain invariant no two occupied slots hold the same credential. -/
theorem chain_ok_unique (m : Flash) (hm : chain_ok m) (p q : Nat)
    (hp : (slot m p).expiration ≠ 0) (hq : (slot m q).expiration ≠ 0)
    (hpq : (slot m p).access_code = (slot m q).access_code) (hlt : p < q) : False := by
  obtain ⟨hp1, _, _⟩ := hm p hp
  obtain ⟨_, _, hq3⟩ := hm q hq
  rw [hpq] at hp1
  have hj := hq3 (p - hash (slot m q).access_code) (by omega)
  have hidx : hash (slot m q).access_code + (p - hash (slot m q).access_code) = p := by omega
  rw [hidx] at hj
  exact hj.2 hpq

/-- The flash after `main`'s insert followed by `main`'s first check. -/
theorem main_run_slot (s : Nat) :
    slot (run_calls flash_zero
        [Call.receive 100 main_packet.raw, Call.unlock 10 (code_with_first 101)]) s
      = if s = 101 then storage_block_t.mk 1000 (code_with_first 101)
        else storage_block_t.mk 0 (fun _ => 0) := by
  show slot (unlock_door (receive_access_code flash_zero 100 main_packet.raw).1 10
    (code_with_first 101)).2 s = _
  rw [unlock_door_flash, main_flash_slot]

/-- The flash after the first `k <= 100` inserts of distinct credentials with the same
home index `h`: record `j` is in slot `h + j`, every other slot is Empty. -/
theorem insert_seq_slots (now : Nat → Nat) (pk : Nat → Fin 40 → Byte) (h : Nat)
    (hd : ∀ k, k ≤ READ_BLOCKS_SIZE → (packet_t.load (pk k)).door_id = MY_DOOR_ID)
    (hh : ∀ k, k ≤ READ_BLOCKS_SIZE → hash (packet_t.load (pk k)).access_code = h)
    (hexp : ∀ k, k ≤ READ_BLOCKS_SIZE → now k < (packet_t.load (pk k)).expiration)
    (hdist : ∀ j k, j ≤ READ_BLOCKS_SIZE → k ≤ READ_BLOCKS_SIZE → j ≠ k →
      (packet_t.load (pk j)).access_code ≠ (packet_t.load (pk k)).access_code) :
    ∀ k, k ≤ READ_BLOCKS_SIZE →
      (∀ j, j < k → slot (insert_seq now pk k) (h + j)
        = storage_block_t.mk (packet_t.load (pk j)).expiration
            (packet_t.load (pk j)).access_code) ∧
      (∀ s, s < h ∨ h + k ≤ s → (slot (insert_seq now pk k) s).expiration = 0) ∧
      (∀ j, j < k →
        (receive_access_code (insert_seq now pk j) (now j) (pk j)).2 = []) := by
  intro k
  induction k with
  | zero =>
    intro _
    refine ⟨fun j hj => absurd hj (Nat.not_lt_zero j), fun s _ => ?_,
      fun j hj => absurd hj (Nat.not_lt_zero j)⟩
    show (slot flash_zero s).expiration = 0
    rw [slot_flash_zero]
  | succ k ih =>
    intro hk
    have hk1 : k < READ_BLOCKS_SIZE := by omega
    obtain ⟨ih1, ih2, ih3⟩ := ih (by omega)
    have hhk := hh k (by omega)
    have hlt : h < 256 := by rw [← hhk]; exact hash_lt _
    have ha : accepted (now k) (pk k) := ⟨hd k (by omega), by have := hexp k (by omega); omega⟩
    have hskip : passes (insert_seq now pk k) (packet_t.load (pk k)).access_code k := by
      intro j hj
      rw [hhk, ih1 j hj]
      simp only
      have hj1 := hexp j (by omega)
      exact ⟨by omega, hdist j k (by omega) (by omega) (by omega)⟩
    have hempty : (slot (insert_seq now pk k)
        (hash (packet_t.load (pk k)).access_code + k)).expiration = 0 := by
      rw [hhk]; exact ih2 _ (Or.inr (Nat.le_refl _))
    have hrec := receive_at_empty (insert_seq now pk k) (now k) (pk k) k ha hk1 hskip hempty
    have hslot : ∀ s, slot (insert_seq now pk (k + 1)) s
        = if s = h + k
          then storage_block_t.mk (packet_t.load (pk k)).expiration
            (packet_t.load (pk k)).access_code
          else slot (insert_seq now pk k) s := by
      intro s
      show slot (receive_access_code (insert_seq now pk k) (now k) (pk k)).1 s = _
      rw [hrec, hhk]
      exact slot_write_block _ _ s _ (by simp only [READ_BLOCKS_SIZE] at hk1; omega)
        (packet_expiration_lt _)
    refine ⟨?_, ?_, ?_⟩
    · intro j hj
      rw [hslot]
      by_cases hjk : j = k
      · subst hjk; rw [if_pos rfl]
      · rw [if_neg (by omega)]
        exact ih1 j (by omega)
    · intro s hs
      rw [hslot, if_neg (by omega)]
      exact ih2 s (by omega)
    · intro j hj
      by_cases hjk : j = k
      · subst hjk; rw [hrec]
      · exact ih3 j (by omega)

theorem code_with_two_hash (b0 b1 : Byte) : hash (code_with_two b0 b1) = b0.val := by
  rw [hash_eq]; rfl

theorem capacity_packet_load (k : Nat) :
    packet_t.load (capacity_packet k) = door_packet 1000 (code_with_two 7 (Fin.ofNat k)) :=
  door_packet_load 1000 _ (by decide)

theorem capacity_packet_distinct (j k : Nat) (hj : j ≤ 100) (hk : k ≤ 100) (hjk : j ≠ k) :
    (packet_t.load (capacity_packet j)).access_code
      ≠ (packet_t.load (capacity_packet k)).access_code := by
  rw [capacity_packet_load, capacity_packet_load]
  intro heq
  have h1 := congrFun heq 1
  simp only [door_packet, code_with_two] at h1
  have h2 := congrArg Fin.val h1
  simp [Fin.ofNat] at h2
  omega

/-! ### Access reader: the claims -/

/-- C1: for every flash state, time `t` and credential `X`, `unlock_door` returns true
exactly when the first slot of the window `hash X .. hash X + 99` that is Empty or holds `X`
is a slot holding `X` whose expiration is strictly greater than `t`; in every other case
(an Empty slot comes first, the matching record is Stale, or the window is exhausted) it
returns false. -/
theorem unlock_door_spec (m : Flash) (t : Nat) (X : access_code_t) :
    ((unlock_door m t X).1 = true ↔
      ∃ i, i < READ_BLOCKS_SIZE ∧ passes m X i ∧
        (slot m (hash X + i)).access_code = X ∧ t < (slot m (hash X + i)).expiration) ∧
    ((unlock_door m t X).1 = false ↔
      ¬ ∃ i, i < READ_BLOCKS_SIZE ∧ passes m X i ∧
        (slot m (hash X + i)).access_code = X ∧ t < (slot m (hash X + i)).expiration) := by
  refine ⟨unlock_door_true_iff m t X, ?_⟩
  rw [← unlock_door_true_iff m t X]
  cases (unlock_door m t X).1 <;> simp

/-- C2: when the window of `X` contains an Empty slot with no record of `X` before it,
then after `receive_access_code` of a packet for this door carrying `X` with an expiration
`e` later than the current time, `unlock_door` on `X` returns true at every time `t < e`
and false at every time `t >= e`. -/
theorem unlock_after_receive (m : Flash) (now : Nat) (p : Fin 40 → Byte) (i : Nat)
    (hd : (packet_t.load p).door_id = MY_DOOR_ID)
    (he : now < (packet_t.load p).expiration)
    (hi : i < READ_BLOCKS_SIZE)
    (hempty : (slot m (hash (packet_t.load p).access_code + i)).expiration = 0)
    (hno : ∀ j, j < i →
      ¬ ((slot m (hash (packet_t.load p).access_code + j)).expiration ≠ 0 ∧
        (slot m (hash (packet_t.load p).access_code + j)).access_code
          = (packet_t.load p).access_code)) :
    (∀ t, t < (packet_t.load p).expiration →
      (unlock_door (receive_access_code m now p).1 t (packet_t.load p).access_code).1 = true) ∧
    (∀ t, (packet_t.load p).expiration ≤ t →
      (unlock_door (receive_access_code m now p).1 t (packet_t.load p).access_code).1
        = false) := by
  have ha : accepted now p := ⟨hd, by omega⟩
  have hh := hash_lt (packet_t.load p).access_code
  have hlt := packet_expiration_lt p
  have hval : ∀ t, (unlock_door (receive_access_code m now p).1 t
      (packet_t.load p).access_code).1 = decide (t < (packet_t.load p).expiration) := by
    intro t
    rcases window_cases m (hash (packet_t.load p).access_code) (packet_t.load p).access_code
      with hall | ⟨i0, hi0, hskip, hhit⟩
    · exact absurd hempty (hall i hi).1
    · have h0 : (slot m (hash (packet_t.load p).access_code + i0)).expiration = 0 := by
        rcases hhit with h0 | ⟨hne, hc⟩
        · exact h0
        · exfalso
          rcases Nat.lt_trichotomy i0 i with h | h | h
          · exact hno i0 h ⟨hne, hc⟩
          · subst h; exact hne hempty
          · exact (hskip i h).1 hempty
      have hslot : ∀ s, slot (receive_access_code m now p).1 s
          = if s = hash (packet_t.load p).access_code + i0
            then storage_block_t.mk (packet_t.load p).expiration (packet_t.load p).access_code
            else slot m s := by
        intro s
        rw [receive_at_empty m now p i0 ha hi0 hskip h0]
        exact slot_write_block m _ s _ (by simp only [READ_BLOCKS_SIZE] at hi0; omega) hlt
      have hpass : passes (receive_access_code m now p).1 (packet_t.load p).access_code i0 := by
        intro j hj
        rw [hslot, if_neg (by omega)]
        exact hskip j hj
      have hat := hslot (hash (packet_t.load p).access_code + i0)
      rw [if_pos rfl] at hat
      rw [unlock_door_at_match _ t _ i0 hi0 hpass (by rw [hat]; simp only; omega)
        (by rw [hat]), hat]
  constructor
  · intro t ht
    rw [hval t]
    exact decide_eq_true ht
  · intro t ht
    rw [hval t]
    exact decide_eq_false (by omega)

/-- Witness for C2: the scenario of `main` on the all-zero flash; the code inserted at
time 100 with expiration 1000 opens the door at time 10 and not at time 10000. -/
theorem unlock_after_receive_witness :
    (unlock_door (receive_access_code flash_zero 100 main_packet.raw).1 10
        (packet_t.load main_packet.raw).access_code).1 = true ∧
    (unlock_door (receive_access_code flash_zero 100 main_packet.raw).1 10000
        (packet_t.load main_packet.raw).access_code).1 = false :=
  have h := unlock_after_receive flash_zero 100 main_packet.raw 0
    (by rw [main_packet_load]; rfl)
    (by rw [main_packet_load]; decide)
    (by decide)
    (by rw [slot_flash_zero])
    (fun j hj => absurd hj (Nat.not_lt_zero j))
  ⟨h.1 10 (by rw [main_packet_load]; decide), h.2 10000 (by rw [main_packet_load]; decide)⟩

/-- C3: after any sequence of `receive_access_code` calls on the all-zero flash, none of
which carries credential `Y`, `unlock_door` on `Y` returns false at every time `t`. -/
theorem unlock_never_inserted (calls : List (Nat × (Fin 40 → Byte))) (Y : access_code_t)
    (t : Nat) (hY : ∀ c, c ∈ calls → (packet_t.load c.2).access_code ≠ Y) :
    (unlock_door (receive_all flash_zero calls) t Y).1 = false := by
  have hinv := receive_all_no_record Y calls flash_zero hY
    (fun s => Or.inl (by rw [slot_flash_zero]))
  cases hres : (unlock_door (receive_all flash_zero calls) t Y).1 with
  | false => rfl
  | true =>
    exfalso
    obtain ⟨i, _, _, hc, ht⟩ := (unlock_door_true_iff _ t Y).mp hres
    rcases hinv (hash Y + i) with h0 | hne
    · omega
    · exact hne hc

/-- Witness for C3: the third check of `main`; after the insert of the code starting with
101, the code starting with 100 does not open the door at time 100. -/
theorem unlock_never_inserted_witness :
    (unlock_door (receive_all flash_zero [(100, main_packet.raw)]) 100
      (code_with_first 100)).1 = false :=
  unlock_never_inserted [(100, main_packet.raw)] (code_with_first 100) 100
    (by
      intro c hc
      rw [List.mem_singleton] at hc
      subst hc
      rw [main_packet_load]
      exact code_with_first_ne 101 100 (by decide))

/-- C4: when the scan from `hash X` finds a record of `X` at slot `hash X + i` with a
non-zero expiration (past `i` occupied slots of other credentials, inside the window), then
after an accepted `receive_access_code` for `X` that record has the larger of the old and
the new expiration and still holds `X`, and nothing else has changed: every other slot and
every byte outside the record is as before, so no second record of `X` is created. -/
theorem receive_existing (m : Flash) (now : Nat) (p : Fin 40 → Byte) (i : Nat)
    (ha : accepted now p) (hi : i < READ_BLOCKS_SIZE)
    (hskip : passes m (packet_t.load p).access_code i)
    (hc : (slot m (hash (packet_t.load p).access_code + i)).access_code
      = (packet_t.load p).access_code)
    (hpos : 0 < (slot m (hash (packet_t.load p).access_code + i)).expiration) :
    (slot (receive_access_code m now p).1
        (hash (packet_t.load p).access_code + i)).expiration
      = max (slot m (hash (packet_t.load p).access_code + i)).expiration
          (packet_t.load p).expiration ∧
    (slot (receive_access_code m now p).1
        (hash (packet_t.load p).access_code + i)).access_code
      = (packet_t.load p).access_code ∧
    (∀ s, s ≠ hash (packet_t.load p).access_code + i →
      slot (receive_access_code m now p).1 s = slot m s) ∧
    (∀ a, a < (hash (packet_t.load p).access_code + i) * 36
        ∨ (hash (packet_t.load p).access_code + i) * 36 + 36 ≤ a →
      (receive_access_code m now p).1 a = m a) := by
  have hh := hash_lt (packet_t.load p).access_code
  have hlt := packet_expiration_lt p
  have hs : hash (packet_t.load p).access_code + i < 1000 := by
    simp only [READ_BLOCKS_SIZE] at hi; omega
  rw [receive_at_match m now p i ha hi hskip (by omega) hc]
  by_cases hlt2 : (slot m (hash (packet_t.load p).access_code + i)).expiration
      < (packet_t.load p).expiration
  · simp only [if_pos hlt2]
    refine ⟨?_, ?_, ?_, ?_⟩
    · rw [slot_write_block m _ _ _ hs hlt, if_pos rfl]
      simp only
      omega
    · rw [slot_write_block m _ _ _ hs hlt, if_pos rfl]
    · intro s hne
      rw [slot_write_block m _ _ _ hs hlt, if_neg hne]
    · intro a ha2
      exact write_block_outside m _ a _ hs ha2
  · rw [if_neg hlt2]
    refine ⟨?_, hc, fun _ _ => rfl, fun _ _ => rfl⟩
    show (slot m (hash (packet_t.load p).access_code + i)).expiration = _
    omega

/-- Witness for C4: after the insert of `main` (expiration 1000), a packet for the same
code with expiration 2000 raises the stored expiration to the larger of the two and keeps
the code, and slot 0 is as before. -/
theorem receive_existing_witness :
    (slot (receive_access_code (receive_access_code flash_zero 100 main_packet.raw).1 500
        (door_packet 2000 (code_with_first 101)).raw).1
        (hash (packet_t.load (door_packet 2000 (code_with_first 101)).raw).access_code
          + 0)).expiration
      = max (slot (receive_access_code flash_zero 100 main_packet.raw).1
          (hash (packet_t.load (door_packet 2000 (code_with_first 101)).raw).access_code
            + 0)).expiration
          (packet_t.load (door_packet 2000 (code_with_first 101)).raw).expiration ∧
    slot (receive_access_code (receive_access_code flash_zero 100 main_packet.raw).1 500
        (door_packet 2000 (code_with_first 101)).raw).1 0
      = slot (receive_access_code flash_zero 100 main_packet.raw).1 0 :=
  have hx : hash (packet_t.load (door_packet 2000 (code_with_first 101)).raw).access_code + 0
      = 101 := by
    rw [door_packet_load _ _ (by decide), hash_eq]; rfl
  have h := receive_existing (receive_access_code flash_zero 100 main_packet.raw).1 500
    (door_packet 2000 (code_with_first 101)).raw 0
    (door_packet_accepted 500 2000 _ (by decide) (by decide))
    (by decide)
    (fun j hj => absurd hj (Nat.not_lt_zero j))
    (by rw [hx, main_flash_slot, door_packet_load _ _ (by decide)]; rfl)
    (by rw [hx, main_flash_slot]; decide)
  ⟨h.1, h.2.2.1 0 (by rw [hx]; decide)⟩

/-- C5: for an accepted packet for `X`, when the first slot of the window that is Empty or
holds `X` is an Empty slot `s = hash X + i`, the flash after `receive_access_code` is the
old flash with exactly the 36 bytes at offset `s * 36` replaced: four bytes of the
little-endian expiration, then the 32 bytes of the credential; every other byte is
unchanged. -/
theorem receive_into_empty (m : Flash) (now : Nat) (p : Fin 40 → Byte) (i : Nat)
    (ha : accepted now p) (hi : i < READ_BLOCKS_SIZE)
    (hskip : passes m (packet_t.load p).access_code i)
    (hempty : (slot m (hash (packet_t.load p).access_code + i)).expiration = 0) :
    (∀ k, k < 4 →
      ((receive_access_code m now p).1
          ((hash (packet_t.load p).access_code + i) * 36 + k)).val
        = (packet_t.load p).expiration / 256 ^ k % 256) ∧
    (∀ j : Fin 32,
      (receive_access_code m now p).1
          ((hash (packet_t.load p).access_code + i) * 36 + 4 + j.val)
        = (packet_t.load p).access_code j) ∧
    (∀ a, a < (hash (packet_t.load p).access_code + i) * 36
        ∨ (hash (packet_t.load p).access_code + i) * 36 + 36 ≤ a →
      (receive_access_code m now p).1 a = m a) := by
  have hh := hash_lt (packet_t.load p).access_code
  have hs : hash (packet_t.load p).access_code + i < 1000 := by
    simp only [READ_BLOCKS_SIZE] at hi; omega
  rw [receive_at_empty m now p i ha hi hskip hempty]
  simp only
  refine ⟨?_, ?_, ?_⟩
  · intro k hk
    rw [flash_write_apply _ _ _ _ _ (by omega), if_pos (by omega)]
    simp only [storage_block_t.raw]
    rw [if_pos (by omega)]
    simp only [le_byte]
    congr 3
    omega
  · intro j
    have hj := j.isLt
    rw [flash_write_apply _ _ _ _ _ (by omega), if_pos (by omega)]
    simp only [storage_block_t.raw]
    rw [if_neg (by omega), dif_pos (by omega)]
    congr 1
    apply Fin.ext
    simp only
    omega
  · intro a ha2
    exact write_block_outside m _ a _ hs ha2

/-- Witness for C5: the insert of `main` on the all-zero flash; byte 1 of the record is
byte 1 of the expiration, byte 4 is the first byte of the code, byte 0 of the flash is
untouched. -/
theorem receive_into_empty_witness :
    ((receive_access_code flash_zero 100 main_packet.raw).1
        ((hash (packet_t.load main_packet.raw).access_code + 0) * 36 + 1)).val
      = (packet_t.load main_packet.raw).expiration / 256 ^ 1 % 256 ∧
    (receive_access_code flash_zero 100 main_packet.raw).1
        ((hash (packet_t.load main_packet.raw).access_code + 0) * 36 + 4 + (0 : Fin 32).val)
      = (packet_t.load main_packet.raw).access_code 0 ∧
    (receive_access_code flash_zero 100 main_packet.raw).1 0 = flash_zero 0 :=
  have h := receive_into_empty flash_zero 100 main_packet.raw 0
    (by unfold accepted; rw [main_packet_load]; decide)
    (by decide)
    (fun j hj => absurd hj (Nat.not_lt_zero j))
    (by rw [slot_flash_zero])
  ⟨h.1 1 (by decide), h.2.1 0,
    h.2.2 0 (Or.inl (by rw [main_packet_load, hash_eq]; decide))⟩

/-- C6: when all 100 slots of the window of `X` are occupied by records of other
credentials, `receive_access_code` for `X` leaves the flash byte for byte as it was, and an
accepted packet gets the capacity failure: the only thing the call does is print
"Failed to find space for new access code". -/
theorem receive_window_full (m : Flash) (now : Nat) (p : Fin 40 → Byte)
    (hall : passes m (packet_t.load p).access_code READ_BLOCKS_SIZE) :
    (receive_access_code m now p).1 = m ∧
    (accepted now p → (receive_access_code m now p).2
      = ["Failed to find space for new access code\n"]) := by
  constructor
  · by_cases ha : accepted now p
    · rw [receive_full m now p ha hall]
    · rw [receive_rejected m now p ha]
  · intro ha
    rw [receive_full m now p ha hall]

/-- Witness for C6: in the flash whose every byte is 1 all slots are occupied by the code of
32 bytes 1, and a packet for the code starting with 7 finds no space. -/
theorem receive_window_full_witness :
    (receive_access_code flash_ones 100 (door_packet 1000 (code_with_first 7)).raw).1
      = flash_ones ∧
    (receive_access_code flash_ones 100 (door_packet 1000 (code_with_first 7)).raw).2
      = ["Failed to find space for new access code\n"] :=
  have h := receive_window_full flash_ones 100 (door_packet 1000 (code_with_first 7)).raw
    (by
      rw [door_packet_load _ _ (by decide)]
      exact flash_ones_full _ (code_with_first_ne_ones 7) _)
  ⟨h.1, h.2 (door_packet_accepted 100 1000 _ (by decide) (by decide))⟩

/-- C7: starting from the all-zero flash, insert 101 pairwise distinct credentials that all
hash to the same home index `h`, each for this door with an expiration later than the
current time of its insert.  The first 100 inserts succeed (nothing is printed) and their
records occupy slots `h .. h + 99` in order; insert number 101 fails with the capacity
message and changes nothing; afterwards `unlock_door` still returns true for each of the
first 100 credentials at every time before its expiration. -/
theorem capacity_scenario (now : Nat → Nat) (pk : Nat → Fin 40 → Byte) (h : Nat)
    (hd : ∀ k, k ≤ READ_BLOCKS_SIZE → (packet_t.load (pk k)).door_id = MY_DOOR_ID)
    (hh : ∀ k, k ≤ READ_BLOCKS_SIZE → hash (packet_t.load (pk k)).access_code = h)
    (hexp : ∀ k, k ≤ READ_BLOCKS_SIZE → now k < (packet_t.load (pk k)).expiration)
    (hdist : ∀ j k, j ≤ READ_BLOCKS_SIZE → k ≤ READ_BLOCKS_SIZE → j ≠ k →
      (packet_t.load (pk j)).access_code ≠ (packet_t.load (pk k)).access_code) :
    (∀ k, k < READ_BLOCKS_SIZE →
      (receive_access_code (insert_seq now pk k) (now k) (pk k)).2 = []) ∧
    (∀ k, k < READ_BLOCKS_SIZE →
      slot (insert_seq now pk READ_BLOCKS_SIZE) (h + k)
        = storage_block_t.mk (packet_t.load (pk k)).expiration
            (packet_t.load (pk k)).access_code) ∧
    receive_access_code (insert_seq now pk READ_BLOCKS_SIZE) (now READ_BLOCKS_SIZE)
        (pk READ_BLOCKS_SIZE)
      = (insert_seq now pk READ_BLOCKS_SIZE,
          ["Failed to find space for new access code\n"]) ∧
    (∀ k t, k < READ_BLOCKS_SIZE → t < (packet_t.load (pk k)).expiration →
      (unlock_door (insert_seq now pk (READ_BLOCKS_SIZE + 1)) t
        (packet_t.load (pk k)).access_code).1 = true) := by
  obtain ⟨h1, _, h3⟩ := insert_seq_slots now pk h hd hh hexp hdist READ_BLOCKS_SIZE
    (Nat.le_refl _)
  have hfull : passes (insert_seq now pk READ_BLOCKS_SIZE)
      (packet_t.load (pk READ_BLOCKS_SIZE)).access_code READ_BLOCKS_SIZE := by
    intro j hj
    rw [hh _ (Nat.le_refl _), h1 j hj]
    simp only
    have hj1 := hexp j (by omega)
    exact ⟨by omega, hdist j _ (by omega) (Nat.le_refl _) (by omega)⟩
  have hlast := receive_full (insert_seq now pk READ_BLOCKS_SIZE) (now READ_BLOCKS_SIZE)
    (pk READ_BLOCKS_SIZE)
    ⟨hd _ (Nat.le_refl _), by have := hexp _ (Nat.le_refl READ_BLOCKS_SIZE); omega⟩ hfull
  refine ⟨h3, h1, hlast, ?_⟩
  intro k t hk ht
  have hstate : insert_seq now pk (READ_BLOCKS_SIZE + 1) = insert_seq now pk READ_BLOCKS_SIZE := by
    show (receive_access_code (insert_seq now pk READ_BLOCKS_SIZE) (now READ_BLOCKS_SIZE)
      (pk READ_BLOCKS_SIZE)).1 = _
    rw [hlast]
  have hpass : passes (insert_seq now pk READ_BLOCKS_SIZE)
      (packet_t.load (pk k)).access_code k := by
    intro j hj
    rw [hh k (by omega), h1 j (by omega)]
    simp only
    have hj1 := hexp j (by omega)
    exact ⟨by omega, hdist j k (by omega) (by omega) (by omega)⟩
  have hat : slot (insert_seq now pk READ_BLOCKS_SIZE)
      (hash (packet_t.load (pk k)).access_code + k)
        = storage_block_t.mk (packet_t.load (pk k)).expiration
            (packet_t.load (pk k)).access_code := by
    rw [hh k (by omega)]; exact h1 k hk
  rw [hstate, unlock_door_at_match _ t _ k hk hpass (by rw [hat]; simp only; omega)
    (by rw [hat]), hat]
  exact decide_eq_true ht

/-- Witness for C7: 101 packets for this door with expiration 1000, received at time 100,
whose codes start with the byte 7 and differ in their second byte. -/
theorem capacity_scenario_witness :
    receive_access_code (insert_seq (fun _ => 100) capacity_packet READ_BLOCKS_SIZE) 100
        (capacity_packet READ_BLOCKS_SIZE)
      = (insert_seq (fun _ => 100) capacity_packet READ_BLOCKS_SIZE,
          ["Failed to find space for new access code\n"]) ∧
    (unlock_door (insert_seq (fun _ => 100) capacity_packet (READ_BLOCKS_SIZE + 1)) 999
      (packet_t.load (capacity_packet 42)).access_code).1 = true :=
  have h := capacity_scenario (fun _ => 100) capacity_packet 7
    (fun k _ => by rw [capacity_packet_load]; rfl)
    (fun k _ => by rw [capacity_packet_load]; exact code_with_two_hash 7 _)
    (fun k _ => by rw [capacity_packet_load]; show 100 < 1000; decide)
    (fun j k hj hk hjk => capacity_packet_distinct j k hj hk hjk)
  ⟨h.2.2.1, h.2.2.2 42 999 (by decide) (by rw [capacity_packet_load]; decide)⟩

/-- C8 (INV2): in every flash reachable from the all-zero flash by a sequence of
`receive_access_code` and `unlock_door` calls (any packets, any times), a credential is
held by at most one slot with non-zero expiration. -/
theorem inv2_unique (calls : List Call) (c : access_code_t) (p q : Nat)
    (hp : (slot (run_calls flash_zero calls) p).expiration ≠ 0)
    (hpc : (slot (run_calls flash_zero calls) p).access_code = c)
    (hq : (slot (run_calls flash_zero calls) q).expiration ≠ 0)
    (hqc : (slot (run_calls flash_zero calls) q).access_code = c) : p = q := by
  have hm := run_calls_chain_ok calls flash_zero chain_ok_zero
  rcases Nat.lt_trichotomy p q with hlt | heq | hgt
  · exact (chain_ok_unique _ hm p q hp hq (by rw [hpc, hqc]) hlt).elim
  · exact heq
  · exact (chain_ok_unique _ hm q p hq hp (by rw [hpc, hqc]) hgt).elim

/-- Witness for C8: after the insert and the first check of `main`, the code of `main` is
held by slot 101. -/
theorem inv2_unique_witness :
    ((slot (run_calls flash_zero
        [Call.receive 100 main_packet.raw, Call.unlock 10 (code_with_first 101)])
        101).expiration ≠ 0 ∧
      (slot (run_calls flash_zero
        [Call.receive 100 main_packet.raw, Call.unlock 10 (code_with_first 101)])
        101).access_code = code_with_first 101) ∧ 101 = 101 :=
  have hp : (slot (run_calls flash_zero
      [Call.receive 100 main_packet.raw, Call.unlock 10 (code_with_first 101)])
      101).expiration ≠ 0 := by rw [main_run_slot]; decide
  have hc : (slot (run_calls flash_zero
      [Call.receive 100 main_packet.raw, Call.unlock 10 (code_with_first 101)])
      101).access_code = code_with_first 101 := by rw [main_run_slot]; rfl
  ⟨⟨hp, hc⟩, inv2_unique _ (code_with_first 101) 101 101 hp hc hp hc⟩

/-- C9 (INV1 and INV3): in every flash reachable from the all-zero flash by a sequence of
`receive_access_code` and `unlock_door` calls, a slot `p` with non-zero expiration that
holds credential `c` satisfies `hash c <= p < hash c + 100`, every slot from `hash c` to
`p` has non-zero expiration, and the forward scan from `hash c` reaches the record:
`unlock_door` on `c` answers by the expiration stored in slot `p`. -/
theorem inv1_reachable (calls : List Call) (p : Nat)
    (hp : (slot (run_calls flash_zero calls) p).expiration ≠ 0) :
    hash (slot (run_calls flash_zero calls) p).access_code ≤ p ∧
    p < hash (slot (run_calls flash_zero calls) p).access_code + READ_BLOCKS_SIZE ∧
    (∀ s, hash (slot (run_calls flash_zero calls) p).access_code ≤ s → s ≤ p →
      (slot (run_calls flash_zero calls) s).expiration ≠ 0) ∧
    (∀ t, (unlock_door (run_calls flash_zero calls) t
        (slot (run_calls flash_zero calls) p).access_code).1
      = decide (t < (slot (run_calls flash_zero calls) p).expiration)) := by
  have hm := run_calls_chain_ok calls flash_zero chain_ok_zero
  obtain ⟨h1, h2, h3⟩ := hm p hp
  have hidx : hash (slot (run_calls flash_zero calls) p).access_code
      + (p - hash (slot (run_calls flash_zero calls) p).access_code) = p := by omega
  refine ⟨h1, h2, ?_, ?_⟩
  · intro s hs1 hs2
    by_cases hsp : s = p
    · rw [hsp]; exact hp
    · have := (h3 (s - hash (slot (run_calls flash_zero calls) p).access_code)
        (by omega)).1
      rwa [show hash (slot (run_calls flash_zero calls) p).access_code
        + (s - hash (slot (run_calls flash_zero calls) p).access_code) = s by omega] at this
  · intro t
    rw [unlock_door_at_match _ t _
      (p - hash (slot (run_calls flash_zero calls) p).access_code) (by omega) h3
      (by rw [hidx]; exact hp) (by rw [hidx]), hidx]

/-- Witness for C9: after the insert and the first check of `main`, slot 101 is occupied and
lies in the window of the code it holds. -/
theorem inv1_reachable_witness :
    hash (slot (run_calls flash_zero
        [Call.receive 100 main_packet.raw, Call.unlock 10 (code_with_first 101)])
        101).access_code ≤ 101 ∧
    101 < hash (slot (run_calls flash_zero
        [Call.receive 100 main_packet.raw, Call.unlock 10 (code_with_first 101)])
        101).access_code + READ_BLOCKS_SIZE :=
  have h := inv1_reachable
    [Call.receive 100 main_packet.raw, Call.unlock 10 (code_with_first 101)] 101
    (by rw [main_run_slot]; decide)
  ⟨h.1, h.2.1⟩

/-- C10: running `unlock_door` twice in a row for the same credential and time gives the
same answer both times, and the flash after each call is the flash before it, so the
expiration stored in any slot is never changed. -/
theorem unlock_door_twice (m : Flash) (t : Nat) (X : access_code_t) :
    (unlock_door (unlock_door m t X).2 t X).1 = (unlock_door m t X).1 ∧
    (unlock_door m t X).2 = m ∧
    (unlock_door (unlock_door m t X).2 t X).2 = m ∧
    (∀ s, (slot (unlock_door (unlock_door m t X).2 t X).2 s).expiration
      = (slot m s).expiration) := by
  rw [unlock_door_flash m t X, unlock_door_flash m t X]
  exact ⟨rfl, rfl, rfl, fun _ => rfl⟩

/-! ### Access reader: compaction, the guard and the probe range -/

theorem probe_index_eq (c : access_code_t) (i : Nat) (hi : i < READ_BLOCKS_SIZE) :
    probe_index c i = hash c + i := by
  have hh := hash_lt c
  simp only [READ_BLOCKS_SIZE] at hi
  unfold probe_index
  omega

theorem slot_count_eq : SLOT_COUNT = 29127 := by decide

/-- Every byte that a call of `receive_access_code` changes lies in one of the slots
0 .. 354. -/
theorem receive_changes_below (m : Flash) (t : Nat) (p : Fin 40 → Byte) (a : Nat)
    (ha : (receive_access_code m t p).1 a ≠ m a) : a < 355 * 36 := by
  rcases receive_effect m t p with h | ⟨i, hi, _, _, _, h⟩
  · rw [h] at ha; exact absurd rfl ha
  · have hh := hash_lt (packet_t.load p).access_code
    simp only [READ_BLOCKS_SIZE] at hi
    by_contra hge
    apply ha
    rw [h]
    exact write_block_outside m _ a _ (by omega) (Or.inr (by omega))

/-- C11 (the code at the failing input): in the flash after the insert of `main`, slot 101
holds a record with expiration 1000, Stale at any time from 1000 on, and slot 102 is Empty;
after `expire_block 101` slot 101 still holds expiration 1000, it is not Empty. -/
theorem expire_block_keeps_stale :
    (slot main_flash 101).expiration = 1000 ∧
    (slot main_flash 102).expiration = 0 ∧
    (slot (expire_block main_flash 101) 101).expiration = 1000 := by
  refine ⟨?_, ?_, ?_⟩
  · show (slot (receive_access_code flash_zero 100 main_packet.raw).1 101).expiration = 1000
    rw [main_flash_slot]; rfl
  · show (slot (receive_access_code flash_zero 100 main_packet.raw).1 102).expiration = 0
    rw [main_flash_slot]; rfl
  · show (slot (receive_access_code flash_zero 100 main_packet.raw).1 101).expiration = 1000
    rw [main_flash_slot]; rfl

/-- C12 (the code at the failing input): `A`, `B`, `C` with home index 7 are inserted in
this order and occupy slots 7, 8, 9.  At time 500 (past the expiration 200 of `B`, before
the expiration 1000 of `A` and `C`) `unlock_door` for `C` scans past the Stale `B` and
calls `expire_block 8`.  Afterwards slot 8 still holds `B` and the record of `C` is still
in slot 9: its index has not decreased, and `C` is found only by a scan of three slots. -/
theorem compaction_leaves_chain :
    (slot abc_flash 7).access_code = code_with_two 7 0 ∧
    (slot abc_flash 8).access_code = code_with_two 7 1 ∧
    (slot abc_flash 9).access_code = code_with_two 7 2 ∧
    (unlock_door abc_flash 500 (code_with_two 7 2)).1 = true ∧
    (slot (unlock_door abc_flash 500 (code_with_two 7 2)).2 8).access_code
      = code_with_two 7 1 ∧
    (slot (unlock_door abc_flash 500 (code_with_two 7 2)).2 8).expiration = 200 ∧
    (slot (unlock_door abc_flash 500 (code_with_two 7 2)).2 9).access_code
      = code_with_two 7 2 ∧
    (slot (unlock_door abc_flash 500 (code_with_two 7 2)).2 9).expiration = 1000 := by
  rw [unlock_door_flash]
  decide!

/-- C13 (the code at the failing input): the packet of `main` has expiration 1000; received
at current time 1000 it is already expired (`unlock_door` at time 1000 refuses the code),
yet `receive_access_code` does not reject it: the flash changes, slot 101 goes from Empty to
a record with expiration 1000. -/
theorem receive_accepts_expiring_now :
    (packet_t.load main_packet.raw).expiration ≤ 1000 ∧
    (slot flash_zero 101).expiration = 0 ∧
    (slot (receive_access_code flash_zero 1000 main_packet.raw).1 101).expiration = 1000 ∧
    (unlock_door (receive_access_code flash_zero 1000 main_packet.raw).1 1000
      (packet_t.load main_packet.raw).access_code).1 = false := by
  decide!

/-- C14: whatever the flash, the current time, the expiration and the access code, a packet
whose little-endian `door_id` (bytes 0 and 1) is not `MY_DOOR_ID = 6` is ignored:
`receive_access_code` leaves the flash unchanged (and prints nothing). -/
theorem receive_foreign_door (m : Flash) (now : Nat) (p : Fin 40 → Byte)
    (hd : (p 0).val + 256 * (p 1).val ≠ MY_DOOR_ID) :
    receive_access_code m now p = (m, []) :=
  receive_rejected m now p (fun ha => hd ha.1)

/-- Witness for C14: the packet of `main` readdressed to door 7, on the flash after the
insert of `main`. -/
theorem receive_foreign_door_witness :
    receive_access_code main_flash 100
        (packet_t.mk 7 2000 0 (code_with_first 101)).raw
      = (main_flash, []) :=
  receive_foreign_door main_flash 100 _ (by decide)

/-- C15 (counterexample): no credential makes the probe reach slot `N = 29127`; for every
code and every `i < 100` the slot index addressed is below `N`. -/
theorem probe_never_reaches_end :
    ¬ ∃ (c : access_code_t) (i : Nat), i < READ_BLOCKS_SIZE ∧ SLOT_COUNT ≤ probe_index c i := by
  rintro ⟨c, i, hi, hge⟩
  have hh := hash_lt c
  rw [probe_index_eq c i hi, slot_count_eq] at hge
  simp only [READ_BLOCKS_SIZE] at hi
  omega

/-- C15 (amended): the probe of `receive_access_code` and `unlock_door` visits the slots
`hash c + i` for `i = 0 .. 99` with no reduction modulo `N = 29127`: block `i` of the window
read is slot `hash c + i` of the flash.  Because `hash` takes only the first byte of the
code, `hash c <= 255`, so every slot index visited is at most 354, below `N`, and the bytes
of the slot lie inside the flash; every byte that `receive_access_code` changes lies below
offset `355 * 36`. -/
theorem probe_stays_in_flash (c : access_code_t) (i : Nat) (hi : i < READ_BLOCKS_SIZE) :
    probe_index c i = hash c + i ∧
    probe_index c i ≤ 354 ∧
    probe_index c i < SLOT_COUNT ∧
    probe_index c i * 36 + 36 ≤ FLASH_MEMORY_SIZE ∧
    (∀ (m : Flash) (d : Nat → Byte),
      block_at (flash_read m ((hash c * 36) % 2 ^ 32) d (READ_BLOCKS_SIZE * 36)) i
        = slot m (probe_index c i)) ∧
    (∀ (m : Flash) (t : Nat) (p : Fin 40 → Byte) (a : Nat),
      (receive_access_code m t p).1 a ≠ m a → a < 355 * 36) := by
  have hh := hash_lt c
  have hp := probe_index_eq c i hi
  have hf : FLASH_MEMORY_SIZE = 1048576 := by decide
  rw [hp, slot_count_eq, hf]
  simp only [READ_BLOCKS_SIZE] at hi
  refine ⟨rfl, by omega, by omega, by omega, ?_, ?_⟩
  · intro m d
    exact window_block m d (hash c) i hh hi
  · intro m t p a ha
    exact receive_changes_below m t p a ha

/-- Witness for C15 (amended): the code of `main` at the last position of the window. -/
theorem probe_stays_in_flash_witness :
    probe_index (code_with_first 101) 99 = hash (code_with_first 101) + 99 ∧
    probe_index (code_with_first 101) 99 ≤ 354 ∧
    probe_index (code_with_first 101) 99 < SLOT_COUNT :=
  have h := probe_stays_in_flash (code_with_first 101) 99 (by decide)
  ⟨h.1, h.2.1, h.2.2.1⟩

end AccessReader

namespace MergeSort

/-! ### Merge sort: the merge loop reads `arr[i]` after the left half is used up -/

/-- The array `main` builds is sorted by `mergeSort`: there the right half is always used up
first, and the first test of the merge loop is then decided by `j > to_idx` alone. -/
theorem mergeSort_main :
    (mergeSort main_arr 0 (SIZE - 1) (List.replicate SIZE 0)).map Prod.fst
      = some ((List.range SIZE).map (fun i => ((i + 1 : Nat) : Int))) := by
  decide!

/-- C16 (the code at the failing input): `mergeSort` on `arr = [2, 3, 1, 4, 9, 9]` with
`from_idx = 0`, `to_idx = 3` and a scratch array of six zeros.  The two halves are sorted
to `[2, 3]` and `[1, 4]`; the merge takes 1, 2, 3, then, with the left half used up
(`i = 2 > midpoint`), the test `arr[i] <= arr[j]` compares `arr[2] = 1` with `arr[3] = 4`
and takes `arr[2]` again.  The segment afterwards is `[1, 2, 3, 1]`, which is not in
non-decreasing order. -/
theorem mergeSort_unsorted :
    mergeSort [2, 3, 1, 4, 9, 9] 0 3 [0, 0, 0, 0, 0, 0]
      = some ([1, 2, 3, 1, 9, 9], [1, 2, 3, 1, 4, 4]) ∧
    segment [1, 2, 3, 1, 9, 9] 0 3 = [1, 2, 3, 1] ∧
    ¬ List.Sorted (fun a b : Int => a ≤ b) (segment [1, 2, 3, 1, 9, 9] 0 3) := by
  decide!

/-- C17 (the code at the failing input): on the same input the segment `[2, 3, 1, 4]`
becomes `[1, 2, 3, 1]`: the element 4 is lost and the element 1 is duplicated, so the
segment afterwards is not a permutation of the segment before. -/
theorem mergeSort_loses_element :
    ∃ r, mergeSort [2, 3, 1, 4, 9, 9] 0 3 [0, 0, 0, 0, 0, 0] = some r ∧
      (segment r.1 0 3).count 4 = 0 ∧
      (segment [2, 3, 1, 4, 9, 9] 0 3).count 4 = 1 ∧
      (segment r.1 0 3).count 1 = 2 ∧
      ¬ List.Perm (segment r.1 0 3) (segment [2, 3, 1, 4, 9, 9] 0 3) := by
  refine ⟨([1, 2, 3, 1, 9, 9], [1, 2, 3, 1, 4, 4]), by decide!, by decide!, by decide!,
    by decide!, ?_⟩
  intro h
  have := h.count_eq 4
  revert this
  decide!

end MergeSort

namespace StateEncoder

/-! ### State path encoder: the search functions and the loops of implementation 3 -/

theorem state_index_spec (g : state_graph_t) (hg : valid_graph g) (k : Nat)
    (hk : k < g.length) (hne : (graph_at g k).name ≠ "") :
    state_index (path_encoder_init g).state_names (graph_at g k).name = some k := by
  obtain ⟨hlen, _, huniq, _⟩ := hg
  have hnk : (path_encoder_init g).state_names k = (graph_at g k).name := by
    simp only [path_encoder_init, if_pos hk]
  cases h : state_index (path_encoder_init g).state_names (graph_at g k).name with
  | none =>
    exfalso
    unfold state_index at h
    have h1 := List.find?_eq_none.mp h k (List.mem_range.mpr (by omega))
    exact h1 (decide_eq_true hnk)
  | some idx =>
    unfold state_index at h
    have h2 := List.find?_some h
    have h1 : (path_encoder_init g).state_names idx = (graph_at g k).name :=
      of_decide_eq_true h2
    by_cases hidx : idx < g.length
    · simp only [path_encoder_init, if_pos hidx] at h1
      rw [huniq idx hidx k hk h1]
    · simp only [path_encoder_init, if_neg hidx] at h1
      exact absurd h1.symm hne

theorem child_index_spec (s : state_t) (c : String)
    (hcount : s.num_children = s.next_states.length) (hc : c ∈ s.next_states) :
    ∃ ci, child_index s c = some ci ∧ ci < s.num_children ∧ s.next_states[ci]? = some c := by
  cases h : child_index s c with
  | none =>
    exfalso
    unfold child_index at h
    obtain ⟨i, hi⟩ := List.mem_iff_getElem?.mp hc
    obtain ⟨hlt, _⟩ := List.getElem?_eq_some.mp hi
    have h1 := List.find?_eq_none.mp h i (List.mem_range.mpr (by omega))
    exact h1 (decide_eq_true hi)
  | some ci =>
    unfold child_index at h
    have h2 := List.find?_some h
    have h1 : s.next_states[ci]? = some c := of_decide_eq_true h2
    exact ⟨ci, rfl, List.mem_range.mp (List.mem_of_find?_eq_some h), h1⟩

/-- The encoder of implementation 3 from row `i` on: it succeeds, stores the number of
transitions `n - 1` in byte 0 and in byte `j + 1` an index `ci < MAX_CHILDREN` with
`next_states[ci]` of the state `path[j]` equal to `path[j + 1]`. -/
theorem encode3_loop_spec (g : state_graph_t) (hg : valid_graph g) (path : path_t) (n : Nat)
    (hp : valid_path g path n) (d : Nat) :
    ∀ (i rows : Nat) (enc : path_encoding_t), i + d = n - 1 → i + rows = MAX_PATH_LEN - 1 →
    ∃ enc', encode3_loop (path_encoder_init g) path rows i enc = some (true, enc') ∧
      enc' 0 = n - 1 ∧
      (∀ j, i ≤ j → j < n - 1 → ∃ k ci, k < g.length ∧ (graph_at g k).name = path j ∧
        ci < MAX_CHILDREN ∧ (graph_at g k).next_states[ci]? = some (path (j + 1)) ∧
        enc' (j + 1) = ci) ∧
      (∀ j, 1 ≤ j → j ≤ i → enc' j = enc j) := by
  obtain ⟨hn0, hn, _, _, hterm, hne, hstep⟩ := hp
  simp only [MAX_PATH_LEN] at hn ⊢
  induction d with
  | zero =>
    intro i rows enc hi hrows
    obtain ⟨r, rfl⟩ : ∃ r, rows = r + 1 := ⟨rows - 1, by omega⟩
    have hin : i + 1 = n := by omega
    refine ⟨Function.update enc 0 (i % 256), ?_, ?_, ?_, ?_⟩
    · rw [encode3_loop, hin, if_pos hterm]
    · rw [Function.update_same]; omega
    · intro j h1 h2; omega
    · intro j h1 _
      rw [Function.update_noteq (by omega)]
  | succ d ih =>
    intro i rows enc hi hrows
    obtain ⟨r, rfl⟩ : ∃ r, rows = r + 1 := ⟨rows - 1, by omega⟩
    obtain ⟨k, hk, hname, hchild⟩ := hstep i (by omega)
    have hcount := hg.2.2.2.1 k hk
    obtain ⟨ci, hci, hcilt, hcget⟩ := child_index_spec (graph_at g k) (path (i + 1)) hcount.1
      hchild
    have hsi : state_index (path_encoder_init g).state_names (path i) = some k := by
      rw [← hname]
      exact state_index_spec g hg k hk (by rw [hname]; exact hne i (by omega))
    have hci4 : ci < MAX_CHILDREN := Nat.lt_of_lt_of_le hcilt hcount.2
    obtain ⟨enc', he, h0, hrest, hkeep⟩ := ih (i + 1) r
      (Function.update enc (i + 1) (ci % 256)) (by omega) (by omega)
    refine ⟨enc', ?_, h0, ?_, ?_⟩
    · rw [encode3_loop, if_neg (hne (i + 1) (by omega))]
      simp only [hsi]
      show (match child_index (graph_at g k) (path (i + 1)) with
        | none => some (false, enc)
        | some child_idx => encode3_loop (path_encoder_init g) path r (i + 1)
            (Function.update enc (i + 1) (child_idx % 256))) = some (true, enc')
      rw [hci]
      exact he
    · intro j h1 h2
      by_cases hji : j = i
      · subst hji
        refine ⟨k, ci, hk, hname, hci4, hcget, ?_⟩
        rw [hkeep (j + 1) (by omega) (Nat.le_refl _), Function.update_same]
        simp only [MAX_CHILDREN] at hci4
        omega
      · exact hrest j (by omega) h2
    · intro j h1 h2
      rw [hkeep j h1 (by omega), Function.update_noteq (by omega)]

/-- The decoder of implementation 3 from row `i` on, with `curr` the state `path[i]`: on an
encoding as the encoder leaves it, it succeeds and fills rows `i .. n - 1` with the path. -/
theorem decode3_loop_spec (g : state_graph_t) (hg : valid_graph g) (path : path_t) (n : Nat)
    (hp : valid_path g path n) (enc : path_encoding_t) (h0 : enc 0 = n - 1)
    (henc : ∀ j, j < n - 1 → ∃ k ci, k < g.length ∧ (graph_at g k).name = path j ∧
        ci < MAX_CHILDREN ∧ (graph_at g k).next_states[ci]? = some (path (j + 1)) ∧
        enc (j + 1) = ci) (d : Nat) :
    ∀ (i rows : Nat) (dec : path_t), i + d = n - 1 → i + rows = MAX_PATH_LEN →
    ∃ dec', decode3_loop (path_encoder_init g) enc rows i (path i) dec = some (true, dec') ∧
      (∀ j, i ≤ j → j ≤ n - 1 → dec' j = path j) ∧
      (∀ j, j < i ∨ n - 1 < j → dec' j = dec j) := by
  obtain ⟨hn0, hn, _, _, hterm, hne, hstep⟩ := hp
  simp only [MAX_PATH_LEN] at hn ⊢
  induction d with
  | zero =>
    intro i rows dec hi hrows
    obtain ⟨r, rfl⟩ : ∃ r, rows = r + 1 := ⟨rows - 1, by omega⟩
    refine ⟨Function.update dec i (path i), ?_, ?_, ?_⟩
    · rw [decode3_loop]
      simp only
      rw [if_pos (by omega)]
    · intro j h1 h2
      have hji : j = i := by omega
      rw [hji, Function.update_same]
    · intro j hj
      rw [Function.update_noteq (by omega)]
  | succ d ih =>
    intro i rows dec hi hrows
    obtain ⟨r, rfl⟩ : ∃ r, rows = r + 1 := ⟨rows - 1, by omega⟩
    obtain ⟨k, ci, hk, hname, hci4, hcget, hbyte⟩ := henc i (by omega)
    have hsi : state_index (path_encoder_init g).state_names (path i) = some k := by
      rw [← hname]
      exact state_index_spec g hg k hk (by rw [hname]; exact hne i (by omega))
    obtain ⟨dec', hd, hrows', hkeep⟩ := ih (i + 1) r (Function.update dec i (path i))
      (by omega) (by omega)
    refine ⟨dec', ?_, ?_, ?_⟩
    · rw [decode3_loop]
      simp only
      rw [if_neg (by omega), if_neg (by simp only [ENCODING_LEN_3, MAX_PATH_LEN]; omega)]
      simp only [hsi, hbyte]
      rw [if_neg (by omega)]
      show (match (graph_at g k).next_states[ci]? with
        | none => some (false, Function.update dec i (path i))
        | some next => decode3_loop (path_encoder_init g) enc r (i + 1) next
            (Function.update dec i (path i))) = some (true, dec')
      rw [hcget]
      exact hd
    · intro j h1 h2
      by_cases hji : j = i
      · rw [hkeep j (Or.inl (by omega)), hji, Function.update_same]
      · exact hrows' j (by omega) h2
    · intro j hj
      rw [hkeep j (by omega), Function.update_noteq (by omega)]

/-! ### State path encoder: the claims -/

theorem main_graph_valid : valid_graph main_graph := by decide!

theorem main_path_valid : valid_path main_graph main_path 12 := by decide!

/-- The round trip of implementation 3 on a table with fewer than `MAX_STATES` named
entries: for every such valid state table passed to `path_encoder_init` and every valid path
of `n` states (first `START`, last `DONE`, each state a child of its predecessor, at most
`MAX_PATH_LEN - 1` states and then the empty-string terminator), `path_encoder_encode`
returns true, and `path_encoder_decode` on the encoding it produced returns true and yields
exactly the original path: rows `0 .. n` (the `n` states and the terminator) are those of
the original, and every later row is empty. -/
theorem roundtrip3 (g : state_graph_t) (path : path_t) (n : Nat)
    (hg : valid_graph g) (hp : valid_path g path n) :
    ∃ enc, path_encoder_encode3 (path_encoder_init g) path = some (true, enc) ∧
      ∃ dec, path_encoder_decode3 (path_encoder_init g) enc = some (true, dec) ∧
        (∀ i, i ≤ n → dec i = path i) ∧ (∀ i, n < i → dec i = "") := by
  obtain ⟨enc, he, h0, henc, _⟩ := encode3_loop_spec g hg path n hp (n - 1) 0
    (MAX_PATH_LEN - 1) (fun _ => 0) (by omega) (by omega)
  have hstart : path 0 = "START" := hp.2.2.1
  have hterm : path n = "" := hp.2.2.2.2.1
  have hn0 : 0 < n := hp.1
  obtain ⟨dec, hd, hrows, hkeep⟩ := decode3_loop_spec g hg path n hp enc h0
    (fun j hj => henc j (Nat.zero_le j) hj) (n - 1) 0 MAX_PATH_LEN (fun _ => "")
    (by omega) (by omega)
  refine ⟨enc, he, dec, ?_, ?_, ?_⟩
  · unfold path_encoder_decode3
    rw [← hstart]
    exact hd
  · intro i hi
    by_cases hin : i = n
    · rw [hin, hkeep n (Or.inr (by omega)), hterm]
    · exact hrows i (Nat.zero_le i) (by omega)
  · intro i hi
    rw [hkeep i (Or.inr (by omega))]

/-- The round trip of implementation 3 on the state table and the path of `main`, twelve
states from `START` to `DONE`. -/
theorem roundtrip3_witness :
    ∃ enc, path_encoder_encode3 (path_encoder_init main_graph) main_path = some (true, enc) ∧
      ∃ dec, path_encoder_decode3 (path_encoder_init main_graph) enc = some (true, dec) ∧
        (∀ i, i ≤ 12 → dec i = main_path i) ∧ (∀ i, 12 < i → dec i = "") :=
  roundtrip3 main_graph main_path 12 main_graph_valid main_path_valid

/-- The loop of `path_encoder_init` ends at the first entry whose name is `NULL` when the
array holds one: rows `i .. length - 1` of `state_names` get the names of the entries. -/
theorem init_loop_spec (g : state_graph_t) :
    ∀ (entries i : Nat) (state_names : Nat → String), i ≤ g.length → g.length - i < entries →
      init_loop g entries i state_names =
        some (fun k => if i ≤ k ∧ k < g.length then (graph_at g k).name else state_names k) := by
  intro entries
  induction entries with
  | zero => intro i state_names _ h; omega
  | succ entries ih =>
    intro i state_names hi hlen
    unfold init_loop
    by_cases hlt : i < g.length
    · rw [if_pos hlt, ih (i + 1) _ (by omega) (by omega)]
      congr 1
      funext k
      by_cases hk : k = i
      · subst hk
        rw [if_neg (by omega), Function.update_same, if_pos ⟨Nat.le_refl k, hlt⟩]
      · rw [Function.update_noteq hk]
        by_cases hik : i + 1 ≤ k ∧ k < g.length
        · rw [if_pos hik, if_pos ⟨by omega, hik.2⟩]
        · rw [if_neg hik, if_neg (by omega)]
    · rw [if_neg hlt]
      congr 1
      funext k
      rw [if_neg (by omega)]

/-- The loop of `path_encoder_init` has no result when every entry left in the array is
named. -/
theorem init_loop_none (g : state_graph_t) :
    ∀ (entries i : Nat) (state_names : Nat → String), i + entries ≤ g.length →
      init_loop g entries i state_names = none := by
  intro entries
  induction entries with
  | zero => intro i state_names _; rfl
  | succ entries ih =>
    intro i state_names h
    unfold init_loop
    rw [if_pos (by omega), ih (i + 1) _ (by omega)]

/-- A call of `path_encoder_init` on a table with fewer than `MAX_STATES` named entries
leaves the globals `path_encoder_init` gives. -/
theorem path_encoder_init_call_eq (g : state_graph_t) (h : g.length < MAX_STATES) :
    path_encoder_init_call g = some (path_encoder_init g) := by
  unfold path_encoder_init_call
  rw [init_loop_spec g MAX_STATES 0 _ (Nat.zero_le _) (by omega)]
  simp only [path_encoder_init, Nat.zero_le, true_and]

/-- A call of `path_encoder_init` on a table whose `MAX_STATES` entries are all named has no
result. -/
theorem path_encoder_init_call_none (g : state_graph_t) (h : MAX_STATES ≤ g.length) :
    path_encoder_init_call g = none := by
  unfold path_encoder_init_call
  rw [init_loop_none g MAX_STATES 0 _ (by omega)]

/-- C18 (the code at the failing input): built with `IMPLEMENTATION=3`, the state table
`full_graph` is valid as the header of the file lists it (names unique, every next state in
the table, `START` and `DONE` present, `num_children` the length of `next_states`) and
conforms to the `#define`s (`MAX_STATES` entries, names shorter than `MAX_STATE_NAME_SIZE`,
at most `MAX_CHILDREN` children), and `START`, `DONE` is a valid path in it; yet the call
of `path_encoder_init` on it has no result: all `MAX_STATES` entries are named, so the loop
`for (i = 0; state_graph[i].name != NULL; i++)` goes on to read `state_graph[MAX_STATES]`,
outside the array, and there are no globals for `path_encoder_encode` to work with. -/
theorem init_reads_past_full_table :
    full_graph.length = MAX_STATES ∧
    (∀ i, i < full_graph.length →
      (graph_at full_graph i).name.length < MAX_STATE_NAME_SIZE) ∧
    (∀ i, i < full_graph.length → ∀ j, j < full_graph.length →
      (graph_at full_graph i).name = (graph_at full_graph j).name → i = j) ∧
    (∀ i, i < full_graph.length →
      (graph_at full_graph i).num_children = (graph_at full_graph i).next_states.length
        ∧ (graph_at full_graph i).num_children ≤ MAX_CHILDREN) ∧
    (∀ i, i < full_graph.length → ∀ c, c ∈ (graph_at full_graph i).next_states →
      ∃ j, j < full_graph.length ∧ (graph_at full_graph j).name = c) ∧
    (∃ j, j < full_graph.length ∧ (graph_at full_graph j).name = "START") ∧
    (∃ j, j < full_graph.length ∧ (graph_at full_graph j).name = "DONE") ∧
    valid_path full_graph full_path 2 ∧
    path_encoder_init_call full_graph = none := by
  refine ⟨by decide!, by decide!, by decide!, by decide!, by decide!, by decide!, by decide!,
    by decide!, rfl⟩

/-- C19 (the code at the failing input): built with `IMPLEMENTATION=4`, on the state table
and the path of `main` (`START B D A C D C A B D FAILED DONE`).  The encoding is 16 bits,
`[2, 209, 202]`.  The decoder has used all 16 bits when it reaches `FAILED`, whose only
child `DONE` takes no bits; the test `j / 8 >= encoding[0] + 1` then makes it return true
before it follows that transition.  The decoded path ends with `FAILED`: row 11, `DONE` in
the original, is empty. -/
theorem decode4_drops_done :
    (path_encoder_encode4 (path_encoder_init main_graph) main_path).map
        (fun r => (r.1, read_bytes r.2 0 13))
      = some (true, [2, 209, 202, 0, 0, 0, 0, 0, 0, 0, 0, 0, 0]) ∧
    ((path_encoder_encode4 (path_encoder_init main_graph) main_path).bind
        (fun r => path_encoder_decode4 (path_encoder_init main_graph) r.2)).map
        (fun r => (r.1, rows_of r.2 13))
      = some (true, ["START", "B", "D", "A", "C", "D", "C", "A", "B", "D", "FAILED", "", ""]) ∧
    rows_of main_path 13
      = ["START", "B", "D", "A", "C", "D", "C", "A", "B", "D", "FAILED", "DONE", ""] := by
  decide!

/-- C20 (the code at the failing input): built with `IMPLEMENTATION=1`, on the path
`START DONE`.  The encoding is the 11 bytes `START\0DONE\0` after the length byte 11.  The
decoder's loop runs while `i < encoding[0]`, so it never looks at byte 11, the NUL that ends
`DONE`, and never copies the last name: the decoded path is `START` alone. -/
theorem decode1_drops_last :
    (path_encoder_encode1 (path_of ["START", "DONE", ""])).map
        (fun r => (r.1, read_bytes r.2 0 13))
      = some (true, [11, 83, 84, 65, 82, 84, 0, 68, 79, 78, 69, 0, 0]) ∧
    ((path_encoder_encode1 (path_of ["START", "DONE", ""])).bind
        (fun r => path_encoder_decode1 r.2)).map (fun r => (r.1, rows_of r.2 3))
      = some (true, ["START", "", ""]) ∧
    rows_of (path_of ["START", "DONE", ""]) 3 = ["START", "DONE", ""] := by
  decide!

/-! ### State path encoder: the bit array of implementation 4 -/

theorem testBit_mod_256 (x i : Nat) : (x % 256).testBit i = (decide (i < 8) && x.testBit i) :=
  Nat.testBit_mod_two_pow x 8 i

theorem testBit_low_bits (v w i : Nat) (hw : w ≤ 8) :
    ((v &&& ((1 <<< w) - 1)) % 256).testBit i = (decide (i < w) && v.testBit i) := by
  rw [testBit_mod_256, Nat.testBit_and, Nat.one_shiftLeft, Nat.testBit_two_pow_sub_one]
  by_cases h : i < w
  · have h8 : i < 8 := by omega
    simp [h, h8]
  · simp [h]

/-- A call of `bit_array_set` changes no byte but `idx / 8` and, when the bits cross the
byte boundary, `idx / 8 + 1`. -/
theorem bit_array_set_frame (enc : Nat → Nat) (j w v k : Nat) (hk : k ≠ j / 8)
    (hk2 : k ≠ j / 8 + 1 ∨ j % 8 + w ≤ 8) : (bit_array_set enc j w v).2 k = enc k := by
  unfold bit_array_set
  simp only
  split
  · rfl
  · split
    · simp only
      rw [Function.update_noteq hk, Function.update_noteq hk]
    · rename_i hrem
      have hk3 : k ≠ j / 8 + 1 := by
        rcases hk2 with h | h
        · exact h
        · exfalso; apply hrem; omega
      simp only
      rw [Function.update_noteq hk3, Function.update_noteq hk3, Function.update_noteq hk,
        Function.update_noteq hk]

/-- Byte `idx / 8` after a call of `bit_array_set` with at most 8 bits. -/
theorem bit_array_set_first (enc : Nat → Nat) (j w v : Nat) (hw : w ≤ 8) :
    (bit_array_set enc j w v).2 (j / 8)
      = (enc (j / 8) &&& ((1 <<< (j % 8)) - 1))
        ||| ((((v &&& ((1 <<< w) - 1)) % 256) <<< (j % 8)) % 256) := by
  unfold bit_array_set
  simp only
  rw [if_neg (by omega)]
  split
  · simp only
    rw [Function.update_same, Function.update_same]
  · simp only
    rw [Function.update_noteq (by omega), Function.update_noteq (by omega),
      Function.update_same, Function.update_same]

/-- Byte `idx / 8 + 1` after a call of `bit_array_set` whose bits cross the byte boundary. -/
theorem bit_array_set_second (enc : Nat → Nat) (j w v : Nat) (hw : w ≤ 8)
    (hcross : 8 < j % 8 + w) :
    (bit_array_set enc j w v).2 (j / 8 + 1)
      = (((enc (j / 8 + 1) >>> (j % 8 + w - 8)) <<< (j % 8 + w - 8)) % 256)
        ||| ((((v &&& ((1 <<< w) - 1)) % 256) >>> (8 - j % 8)) % 256) := by
  unfold bit_array_set
  simp only
  rw [if_neg (by omega), if_neg (by omega)]
  have hr : ((w : Int) - (8 - ((j % 8 : Nat) : Int))).toNat = j % 8 + w - 8 := by omega
  simp only [hr]
  rw [Function.update_same, Function.update_same, Function.update_noteq (by omega),
    Function.update_noteq (by omega)]

theorem bit_array_set_bit_below (enc : Nat → Nat) (j w v p : Nat) (hw : w ≤ 8) (hp : p < j) :
    encoding_bit (bit_array_set enc j w v).2 p = encoding_bit enc p := by
  unfold encoding_bit
  by_cases hb : p / 8 = j / 8
  · have hm : p % 8 < j % 8 := by omega
    have hm8 : p % 8 < 8 := by omega
    rw [hb, bit_array_set_first enc j w v hw, Nat.testBit_or, Nat.testBit_and,
      Nat.one_shiftLeft, Nat.testBit_two_pow_sub_one, testBit_mod_256, Nat.testBit_shiftLeft]
    have hge : ¬ p % 8 ≥ j % 8 := by omega
    simp [hm, hge]
  · rw [bit_array_set_frame enc j w v (p / 8) hb (Or.inl (by omega))]

theorem bit_array_set_bit_in (enc : Nat → Nat) (j w v p : Nat) (hw : w ≤ 8) (hj : j ≤ p)
    (hp : p < j + w) : encoding_bit (bit_array_set enc j w v).2 p = v.testBit (p - j) := by
  unfold encoding_bit
  by_cases hb : p / 8 = j / 8
  · have hm : j % 8 ≤ p % 8 := by omega
    have hm8 : p % 8 < 8 := by omega
    have hsub : p % 8 - j % 8 = p - j := by omega
    have hlt : p - j < w := by omega
    rw [hb, bit_array_set_first enc j w v hw, Nat.testBit_or, Nat.testBit_and,
      Nat.one_shiftLeft, Nat.testBit_two_pow_sub_one, testBit_mod_256, Nat.testBit_shiftLeft,
      testBit_low_bits v w _ hw, hsub]
    have hnlt : ¬ p % 8 < j % 8 := by omega
    simp [hm, hm8, hlt, hnlt]
  · have hb2 : p / 8 = j / 8 + 1 := by omega
    have hcross : 8 < j % 8 + w := by omega
    have hm8 : p % 8 < 8 := by omega
    have hidx : 8 - j % 8 + p % 8 = p - j := by omega
    have hlt : p - j < w := by omega
    have hnge : ¬ p % 8 ≥ j % 8 + w - 8 := by omega
    rw [hb2, bit_array_set_second enc j w v hw hcross]
    simp only [Nat.testBit_or, testBit_mod_256, Nat.testBit_shiftLeft, Nat.testBit_shiftRight,
      fun i => testBit_low_bits v w i hw, hidx]
    simp [hm8, hlt, hnge]

theorem ENCODING_LEN_4_eq : ENCODING_LEN_4 = 13 := by decide

theorem BITS_TO_INDEX_small (n : Nat) (hn : n ≤ MAX_CHILDREN) :
    BITS_TO_INDEX n ≤ 2 ∧ n ≤ 2 ^ BITS_TO_INDEX n := by
  simp only [MAX_CHILDREN] at hn
  interval_cases n <;> decide

/-- The transition out of row `i` of a valid path: the state that `state_index` finds is the
state of the table named `path[i]`, the child index that `child_index` finds selects
`path[i + 1]` among its next states, and the index fits in the bits of the transition. -/
theorem transition_spec (g : state_graph_t) (hg : valid_graph g) (path : path_t) (n : Nat)
    (hp : valid_path g path n) (i : Nat) (hi : i < n - 1) :
    ∃ k, k < g.length ∧ (graph_at g k).name = path i ∧
      state_index (path_encoder_init g).state_names (path i) = some k ∧
      child_index (graph_at g k) (path (i + 1))
        = some (transition_child (path_encoder_init g) path i) ∧
      transition_bits (path_encoder_init g) path i
        = BITS_TO_INDEX (graph_at g k).num_children ∧
      (graph_at g k).next_states[transition_child (path_encoder_init g) path i]?
        = some (path (i + 1)) ∧
      transition_bits (path_encoder_init g) path i ≤ 2 ∧
      transition_child (path_encoder_init g) path i
        < 2 ^ transition_bits (path_encoder_init g) path i := by
  obtain ⟨_, _, _, _, _, hne, hstep⟩ := hp
  obtain ⟨k, hk, hname, hchild⟩ := hstep i hi
  have hcount := hg.2.2.2.1 k hk
  obtain ⟨ci, hci, hcilt, hcget⟩ := child_index_spec (graph_at g k) (path (i + 1)) hcount.1
    hchild
  have hsi : state_index (path_encoder_init g).state_names (path i) = some k := by
    rw [← hname]
    exact state_index_spec g hg k hk (by rw [hname]; exact hne i (by omega))
  have hsmall := BITS_TO_INDEX_small (graph_at g k).num_children hcount.2
  have hbits : transition_bits (path_encoder_init g) path i
      = BITS_TO_INDEX (graph_at g k).num_children := by
    simp only [transition_bits, hsi]
    rfl
  have hchildv : transition_child (path_encoder_init g) path i = ci := by
    simp only [transition_child, hsi]
    show (child_index (graph_at g k) (path (i + 1))).getD 0 = ci
    rw [hci]
    rfl
  rw [hchildv, hbits]
  exact ⟨k, hk, hname, hsi, hci, rfl, hcget, hsmall.1, by omega⟩

theorem bits_before_step (G : encoder_globals) (path : path_t) (i : Nat) :
    bits_before G path (i + 1) = bits_before G path i + transition_bits G path i := rfl

theorem bits_before_mono (G : encoder_globals) (path : path_t) (a : Nat) :
    ∀ b, a ≤ b → bits_before G path a ≤ bits_before G path b := by
  intro b hab
  induction b with
  | zero =>
    have : a = 0 := by omega
    rw [this]
  | succ b ih =>
    by_cases h : a = b + 1
    · rw [h]
    · have := ih (by omega)
      rw [bits_before_step]
      omega

theorem bits_before_le (g : state_graph_t) (hg : valid_graph g) (path : path_t) (n : Nat)
    (hp : valid_path g path n) :
    ∀ i, i ≤ n - 1 → bits_before (path_encoder_init g) path i ≤ 2 * i := by
  intro i
  induction i with
  | zero => intro _; exact Nat.le_refl _
  | succ i ih =>
    intro hi
    obtain ⟨k, _, _, _, _, _, _, hle, _⟩ := transition_spec g hg path n hp i (by omega)
    have := ih (by omega)
    rw [bits_before_step]
    omega

/-- The encoder of implementation 4 from row `i` on, started at bit index
`8 + bits_before i` on an encoding whose bytes from that bit on are zero and whose earlier
bits hold the child indices of the earlier transitions. -/
theorem encode4_loop_spec (g : state_graph_t) (hg : valid_graph g) (path : path_t) (n : Nat)
    (hp : valid_path g path n) (d : Nat) :
    ∀ (i rows : Nat) (enc : path_encoding_t), i + d = n - 1 → i + rows = MAX_PATH_LEN - 1 →
    (∀ k, 8 + bits_before (path_encoder_init g) path i ≤ 8 * k → enc k = 0) →
    (∀ t, t < i → ∀ b, b < transition_bits (path_encoder_init g) path t →
      encoding_bit enc (8 + bits_before (path_encoder_init g) path t + b)
        = (transition_child (path_encoder_init g) path t).testBit b) →
    ∃ enc1, encode4_loop (path_encoder_init g) path rows i
        (8 + bits_before (path_encoder_init g) path i) enc = some (true, enc1) ∧
      enc1 0 = (bits_before (path_encoder_init g) path (n - 1) + 7) / 8 ∧
      (∀ t, t < n - 1 → ∀ b, b < transition_bits (path_encoder_init g) path t →
        encoding_bit enc1 (8 + bits_before (path_encoder_init g) path t + b)
          = (transition_child (path_encoder_init g) path t).testBit b) ∧
      (∀ k, (bits_before (path_encoder_init g) path (n - 1) + 7) / 8 < k → enc1 k = 0) := by
  have hp0 := hp
  obtain ⟨hn0, hn, _, _, hterm, hne, hstep⟩ := hp
  simp only [MAX_PATH_LEN] at hn ⊢
  induction d with
  | zero =>
    intro i rows enc hi hrows hzero hstored
    obtain ⟨r, rfl⟩ : ∃ r, rows = r + 1 := ⟨rows - 1, by omega⟩
    have hin : i + 1 = n := by omega
    have hi1 : i = n - 1 := by omega
    have hB := bits_before_le g hg path n hp0 i (by omega)
    refine ⟨Function.update enc 0
      (((8 + bits_before (path_encoder_init g) path i - 8 + 7) / 8) % 256), ?_, ?_, ?_, ?_⟩
    · rw [encode4_loop, hin, if_pos hterm]
    · rw [Function.update_same, ← hi1]
      omega
    · intro t ht b hb
      unfold encoding_bit
      rw [Function.update_noteq (by omega)]
      exact hstored t (by omega) b hb
    · intro k hk
      rw [← hi1] at hk
      rw [Function.update_noteq (by omega)]
      exact hzero k (by omega)
  | succ d ih =>
    intro i rows enc hi hrows hzero hstored
    obtain ⟨r, rfl⟩ : ∃ r, rows = r + 1 := ⟨rows - 1, by omega⟩
    obtain ⟨k, hk, hname, hsi, hci, hbits, _, hle, _⟩ :=
      transition_spec g hg path n hp0 i (by omega)
    have hB := bits_before_le g hg path n hp0 i (by omega)
    by_cases hw : 0 < transition_bits (path_encoder_init g) path i
    · -- bits are stored for this transition
      have hzero2 : ∀ k2, 8 + bits_before (path_encoder_init g) path (i + 1) ≤ 8 * k2 →
          (bit_array_set enc ((8 + bits_before (path_encoder_init g) path i) % 256)
            (transition_bits (path_encoder_init g) path i % 256)
            (transition_child (path_encoder_init g) path i % 256)).2 k2 = 0 := by
        intro k2 hk2
        rw [bits_before_step] at hk2
        rw [bit_array_set_frame _ _ _ _ k2 (by omega) (by omega)]
        exact hzero k2 (by omega)
      have hstored2 : ∀ t, t < i + 1 → ∀ b, b < transition_bits (path_encoder_init g) path t →
          encoding_bit (bit_array_set enc ((8 + bits_before (path_encoder_init g) path i) % 256)
            (transition_bits (path_encoder_init g) path i % 256)
            (transition_child (path_encoder_init g) path i % 256)).2
            (8 + bits_before (path_encoder_init g) path t + b)
            = (transition_child (path_encoder_init g) path t).testBit b := by
        intro t ht b hb
        have hj : (8 + bits_before (path_encoder_init g) path i) % 256
            = 8 + bits_before (path_encoder_init g) path i := by omega
        have hwm : transition_bits (path_encoder_init g) path i % 256
            = transition_bits (path_encoder_init g) path i := by omega
        by_cases hti : t = i
        · subst hti
          rw [hj, hwm, bit_array_set_bit_in _ _ _ _ _ (by omega) (by omega) (by omega),
            Nat.add_sub_cancel_left, testBit_mod_256]
          have hb8 : b < 8 := by omega
          simp [hb8]
        · have hmono := bits_before_mono (path_encoder_init g) path (t + 1) i (by omega)
          rw [bits_before_step] at hmono
          rw [hj, hwm, bit_array_set_bit_below _ _ _ _ _ (by omega) (by omega)]
          exact hstored t (by omega) b hb
      obtain ⟨enc1, he, h0, hst, hz⟩ := ih (i + 1) r _ (by omega) (by omega) hzero2 hstored2
      refine ⟨enc1, ?_, h0, hst, hz⟩
      rw [encode4_loop, if_neg (hne (i + 1) (by omega))]
      simp only [hsi]
      show (match child_index (graph_at g k) (path (i + 1)) with
        | none => some (false, enc)
        | some child_idx =>
          if BITS_TO_INDEX (graph_at g k).num_children > 0 then
            if 8 + bits_before (path_encoder_init g) path i
                + BITS_TO_INDEX (graph_at g k).num_children > 8 * ENCODING_LEN_4 then none
            else
              encode4_loop (path_encoder_init g) path r (i + 1)
                (8 + bits_before (path_encoder_init g) path i
                  + BITS_TO_INDEX (graph_at g k).num_children)
                (bit_array_set enc ((8 + bits_before (path_encoder_init g) path i) % 256)
                  (BITS_TO_INDEX (graph_at g k).num_children % 256) (child_idx % 256)).2
          else
            encode4_loop (path_encoder_init g) path r (i + 1)
              (8 + bits_before (path_encoder_init g) path i) enc) = some (true, enc1)
      rw [hci]
      simp only
      rw [← hbits, if_pos hw, if_neg (by rw [ENCODING_LEN_4_eq]; omega)]
      rw [bits_before_step, ← Nat.add_assoc] at he
      exact he
    · -- a state with at most one child: no bits
      have hw0 : transition_bits (path_encoder_init g) path i = 0 := by omega
      have hsame : bits_before (path_encoder_init g) path (i + 1)
          = bits_before (path_encoder_init g) path i := by
        rw [bits_before_step, hw0, Nat.add_zero]
      have hstored2 : ∀ t, t < i + 1 → ∀ b, b < transition_bits (path_encoder_init g) path t →
          encoding_bit enc (8 + bits_before (path_encoder_init g) path t + b)
            = (transition_child (path_encoder_init g) path t).testBit b := by
        intro t ht b hb
        by_cases hti : t = i
        · subst hti; omega
        · exact hstored t (by omega) b hb
      obtain ⟨enc1, he, h0, hst, hz⟩ := ih (i + 1) r enc (by omega) (by omega)
        (by rw [hsame]; exact hzero) hstored2
      refine ⟨enc1, ?_, h0, hst, hz⟩
      rw [encode4_loop, if_neg (hne (i + 1) (by omega))]
      simp only [hsi]
      show (match child_index (graph_at g k) (path (i + 1)) with
        | none => some (false, enc)
        | some child_idx =>
          if BITS_TO_INDEX (graph_at g k).num_children > 0 then
            if 8 + bits_before (path_encoder_init g) path i
                + BITS_TO_INDEX (graph_at g k).num_children > 8 * ENCODING_LEN_4 then none
            else
              encode4_loop (path_encoder_init g) path r (i + 1)
                (8 + bits_before (path_encoder_init g) path i
                  + BITS_TO_INDEX (graph_at g k).num_children)
                (bit_array_set enc ((8 + bits_before (path_encoder_init g) path i) % 256)
                  (BITS_TO_INDEX (graph_at g k).num_children % 256) (child_idx % 256)).2
          else
            encode4_loop (path_encoder_init g) path r (i + 1)
              (8 + bits_before (path_encoder_init g) path i) enc) = some (true, enc1)
      rw [hci]
      simp only
      rw [← hbits, if_neg hw]
      rw [hsame] at he
      exact he

/-- C21: with `IMPLEMENTATION=4`, for a valid state table and a valid path of `n` states,
`path_encoder_encode` returns true and the first byte is the length of the encoding:
`encoding[0]` is `B / 8` rounded up, where `B` is the sum over the `n - 1` transitions of
the path of `BITS_TO_INDEX` of the `num_children` of the source state.  The encoded bits
occupy bytes `1 .. encoding[0]`: the transition out of row `i` has its child index, which
fits in its bits, stored bit by bit from bit `8 + (bits of the earlier transitions)` on, and
each of those bits lies in a byte from 1 to `encoding[0]`.  Every byte at an index greater
than `encoding[0]` is zero. -/
theorem encode4_length (g : state_graph_t) (path : path_t) (n : Nat)
    (hg : valid_graph g) (hp : valid_path g path n) :
    ∃ enc, path_encoder_encode4 (path_encoder_init g) path = some (true, enc) ∧
      enc 0 = (bits_before (path_encoder_init g) path (n - 1) + 7) / 8 ∧
      (∀ i, i < n - 1 →
        (∃ k, k < g.length ∧ (graph_at g k).name = path i ∧
          transition_bits (path_encoder_init g) path i
            = BITS_TO_INDEX (graph_at g k).num_children ∧
          (graph_at g k).next_states[transition_child (path_encoder_init g) path i]?
            = some (path (i + 1))) ∧
        transition_child (path_encoder_init g) path i
          < 2 ^ transition_bits (path_encoder_init g) path i ∧
        ∀ b, b < transition_bits (path_encoder_init g) path i →
          encoding_bit enc (8 + bits_before (path_encoder_init g) path i + b)
            = (transition_child (path_encoder_init g) path i).testBit b ∧
          1 ≤ (8 + bits_before (path_encoder_init g) path i + b) / 8 ∧
          (8 + bits_before (path_encoder_init g) path i + b) / 8 ≤ enc 0) ∧
      (∀ k, enc 0 < k → enc k = 0) := by
  have hn : n < MAX_PATH_LEN := hp.2.1
  simp only [MAX_PATH_LEN] at hn
  obtain ⟨enc, he, h0, hst, hz⟩ := encode4_loop_spec g hg path n hp (n - 1) 0
    (MAX_PATH_LEN - 1) (fun _ => 0) (by omega) (by omega) (fun _ _ => rfl)
    (fun t ht => absurd ht (Nat.not_lt_zero t))
  refine ⟨enc, he, h0, ?_, ?_⟩
  · intro i hi
    obtain ⟨k, hk, hname, _, _, hbits, hget, _, hfit⟩ := transition_spec g hg path n hp i hi
    refine ⟨⟨k, hk, hname, hbits, hget⟩, hfit, ?_⟩
    intro b hb
    have hmono := bits_before_mono (path_encoder_init g) path (i + 1) (n - 1) (by omega)
    rw [bits_before_step] at hmono
    refine ⟨hst i hi b hb, by omega, ?_⟩
    rw [h0]
    omega
  · intro k hk
    rw [h0] at hk
    exact hz k hk

/-- Witness for C21: the state table and the path of `main`. -/
theorem encode4_length_witness :
    ∃ enc, path_encoder_encode4 (path_encoder_init main_graph) main_path = some (true, enc) ∧
      enc 0 = (bits_before (path_encoder_init main_graph) main_path (12 - 1) + 7) / 8 ∧
      (∀ k, enc 0 < k → enc k = 0) :=
  (encode4_length main_graph main_path 12 main_graph_valid main_path_valid).elim
    fun enc h => ⟨enc, h.1, h.2.1, h.2.2.2⟩

end StateEncoder

namespace TreeSerializer

/-! ### Tree serializer: the layout written by `serializeTree` -/

theorem size_node (v : Int) (l r : BinTree) : (BinTree.node v l r).size = 1 + l.size + r.size :=
  rfl

theorem encodes_mono (a : Int → node2_t) (lo hi lo2 hi2 : Int) (hlo : lo2 ≤ lo) (hhi : hi ≤ hi2) :
    ∀ (t : BinTree) (i : Int), encodes a lo hi t i → encodes a lo2 hi2 t i := by
  intro t
  induction t with
  | nil => intro i h; exact h
  | node v l r ihl ihr =>
    intro i h
    obtain ⟨h1, h2, h3, h4, h5⟩ := h
    exact ⟨by omega, by omega, h3, ihl _ h4, ihr _ h5⟩

theorem encodes_congr (a b : Int → node2_t) (lo hi : Int)
    (hab : ∀ k, lo ≤ k → k < hi → b k = a k) :
    ∀ (t : BinTree) (i : Int), encodes a lo hi t i → encodes b lo hi t i := by
  intro t
  induction t with
  | nil => intro i h; exact h
  | node v l r ihl ihr =>
    intro i h
    obtain ⟨h1, h2, h3, h4, h5⟩ := h
    have hi := hab i h1 h2
    refine ⟨h1, h2, ?_, ?_, ?_⟩
    · rw [hi]; exact h3
    · rw [hi]; exact ihl _ h4
    · rw [hi]; exact ihr _ h5

/-- What `serializeTree` does when the tree fits: it returns `-1` for the empty tree and the
index of the last entry otherwise, it changes no entry outside `idx .. idx + size - 1`, and
the array then holds the tree with its root at `idx`. -/
theorem serializeTree_spec (t : BinTree) :
    ∀ (a : Int → node2_t) (idx : Int), 0 ≤ idx → idx + t.size ≤ MAX_NODES →
    ∃ a1, serializeTree t a idx
        = some (if t.size = 0 then -1 else idx + t.size - 1, a1) ∧
      (∀ k, k < idx ∨ idx + t.size ≤ k → a1 k = a k) ∧
      encodes a1 idx (idx + t.size) t (if t.size = 0 then -1 else idx) := by
  induction t with
  | nil =>
    intro a idx _ _
    exact ⟨a, rfl, fun _ _ => rfl, rfl⟩
  | node v l r ihl ihr =>
    intro a idx h0 hfit
    rw [size_node] at hfit
    simp only [MAX_NODES] at hfit ihl ihr
    obtain ⟨a1, hl, hframe1, henc1⟩ := ihl a (idx + 1) (by omega) (by omega)
    have hrs : 1 + MAX idx (if l.size = 0 then -1 else idx + 1 + ↑l.size - 1)
        = idx + 1 + l.size := by
      unfold MAX
      split_ifs <;> omega
    obtain ⟨a2, hr, hframe2, henc2⟩ := ihr a1 (idx + 1 + l.size) (by omega) (by omega)
    have hend : MAX idx (MAX (if l.size = 0 then -1 else idx + 1 + ↑l.size - 1)
        (if r.size = 0 then -1 else idx + 1 + ↑l.size + ↑r.size - 1))
        = idx + ((1 + l.size + r.size : Nat) : Int) - 1 := by
      unfold MAX
      split_ifs <;> omega
    have hleft : MIN (idx + 1) (if l.size = 0 then -1 else idx + 1 + ↑l.size - 1)
        = if l.size = 0 then -1 else idx + 1 := by
      unfold MIN
      split_ifs <;> omega
    have hright : MIN (idx + 1 + ↑l.size)
        (if r.size = 0 then -1 else idx + 1 + ↑l.size + ↑r.size - 1)
        = if r.size = 0 then -1 else idx + 1 + ↑l.size := by
      unfold MIN
      split_ifs <;> omega
    refine ⟨Function.update a2 idx
      { value := v
        left := if l.size = 0 then -1 else idx + 1
        right := if r.size = 0 then -1 else idx + 1 + ↑l.size }, ?_, ?_, ?_⟩
    · have hin : 0 ≤ idx ∧ idx < ((MAX_NODES : Nat) : Int) := by
        refine ⟨h0, ?_⟩
        simp only [MAX_NODES]
        omega
      have hsz : ¬ (BinTree.node v l r).size = 0 := by rw [size_node]; omega
      rw [serializeTree]
      simp only [hl, hrs, hr, hend, hleft, hright]
      rw [if_pos hin, if_neg hsz, size_node]
    · intro k hk
      rw [size_node] at hk
      rw [Function.update_noteq (by omega), hframe2 k (by omega), hframe1 k (by omega)]
    · have hsz : ¬ 1 + l.size + r.size = 0 := by omega
      rw [size_node, if_neg hsz]
      refine ⟨Int.le_refl _, by omega, ?_, ?_, ?_⟩
      · rw [Function.update_same]
      · rw [Function.update_same]
        simp only
        apply encodes_mono _ (idx + 1) (idx + 1 + l.size) _ _ (by omega) (by omega)
        apply encodes_congr a1 _ _ _ _ l _ henc1
        intro k hk1 hk2
        rw [Function.update_noteq (by omega), hframe2 k (by omega)]
      · rw [Function.update_same]
        simp only
        apply encodes_mono _ (idx + 1 + l.size) (idx + 1 + l.size + r.size) _ _ (by omega)
          (by omega)
        apply encodes_congr a2 _ _ _ _ r _ henc2
        intro k hk1 hk2
        rw [Function.update_noteq (by omega)]

theorem serializeTree_agree (t : BinTree) :
    ∀ (a b a1 b1 : Int → node2_t) (idx e1 e2 : Int), 0 ≤ idx → idx + t.size ≤ MAX_NODES →
    serializeTree t a idx = some (e1, a1) → serializeTree t b idx = some (e2, b1) →
    ∀ k, idx ≤ k → k < idx + t.size → a1 k = b1 k := by
  induction t with
  | nil =>
    intro a b a1 b1 idx e1 e2 _ _ _ _ k hk1 hk2
    simp only [BinTree.size] at hk2
    omega
  | node v l r ihl ihr =>
    intro a b a1 b1 idx e1 e2 h0 hfit ha hb k hk1 hk2
    rw [size_node] at hfit hk2
    simp only [MAX_NODES] at hfit ihl ihr
    obtain ⟨al, hal, hfal, _⟩ := serializeTree_spec l a (idx + 1) (by omega)
      (by simp only [MAX_NODES]; omega)
    obtain ⟨bl, hbl, hfbl, _⟩ := serializeTree_spec l b (idx + 1) (by omega)
      (by simp only [MAX_NODES]; omega)
    have hrs : 1 + MAX idx (if l.size = 0 then -1 else idx + 1 + ↑l.size - 1)
        = idx + 1 + l.size := by
      unfold MAX
      split_ifs <;> omega
    obtain ⟨ar, har, hfar, _⟩ := serializeTree_spec r al (idx + 1 + l.size) (by omega)
      (by simp only [MAX_NODES]; omega)
    obtain ⟨br, hbr, hfbr, _⟩ := serializeTree_spec r bl (idx + 1 + l.size) (by omega)
      (by simp only [MAX_NODES]; omega)
    have hin : 0 ≤ idx ∧ idx < ((MAX_NODES : Nat) : Int) := by
      refine ⟨h0, ?_⟩
      simp only [MAX_NODES]
      omega
    rw [serializeTree] at ha hb
    simp only [hal, hrs, har, if_pos hin, Option.some.injEq, Prod.mk.injEq] at ha
    simp only [hbl, hrs, hbr, if_pos hin, Option.some.injEq, Prod.mk.injEq] at hb
    rw [← ha.2, ← hb.2]
    by_cases hki : k = idx
    · rw [hki, Function.update_same, Function.update_same]
    · rw [Function.update_noteq hki, Function.update_noteq hki]
      by_cases hkl : k < idx + 1 + l.size
      · rw [hfar k (Or.inl hkl), hfbr k (Or.inl hkl)]
        exact ihl a b al bl (idx + 1) _ _ (by omega) (by omega) hal hbl k (by omega) hkl
      · exact ihr al bl ar br (idx + 1 + l.size) _ _ (by omega) (by omega) har hbr k
          (by omega) (by omega)

theorem deserialize_loop_spec (ta : Int → node2_t) (n : Nat) :
    ∀ (i : Int) (tree : Int → node_t), 0 ≤ i → i + n ≤ MAX_NODES →
    ∃ tree1, deserialize_loop ta n i tree = some tree1 ∧
      (∀ k, i ≤ k → k < i + n → tree1 k
        = { value := (ta k).value, left := pointer_of (ta k).left,
            right := pointer_of (ta k).right }) ∧
      (∀ k, k < i ∨ i + n ≤ k → tree1 k = tree k) := by
  induction n with
  | zero =>
    intro i tree _ _
    exact ⟨tree, rfl, fun k h1 h2 => by omega, fun _ _ => rfl⟩
  | succ n ih =>
    intro i tree h0 hfit
    simp only [MAX_NODES] at hfit ih
    have hin : 0 ≤ i ∧ i < ((MAX_NODES : Nat) : Int) := by
      refine ⟨h0, ?_⟩
      simp only [MAX_NODES]
      omega
    obtain ⟨tree1, h1, h2, h3⟩ := ih (i + 1)
      (Function.update tree i
        { value := (ta i).value, left := pointer_of (ta i).left,
          right := pointer_of (ta i).right }) (by omega) (by omega)
    refine ⟨tree1, ?_, ?_, ?_⟩
    · rw [deserialize_loop, if_pos hin]
      exact h1
    · intro k hk1 hk2
      by_cases hki : k = i
      · rw [h3 k (Or.inl (by omega)), hki, Function.update_same]
      · exact h2 k (by omega) (by omega)
    · intro k hk
      rw [h3 k (by omega), Function.update_noteq (by omega)]

/-- Reading back a tree that the array holds: when the memory agrees with the array on the
entries of the tree, the pointer for the root index denotes the tree. -/
theorem tree_at_of_encodes (ta : Int → node2_t) (mem : Int → node_t) (lo hi : Int)
    (hlo : 0 ≤ lo)
    (hmem : ∀ k, lo ≤ k → k < hi → mem k
      = { value := (ta k).value, left := pointer_of (ta k).left,
          right := pointer_of (ta k).right }) :
    ∀ (t : BinTree) (i : Int) (depth : Nat), encodes ta lo hi t i → t.size ≤ depth →
      tree_at mem depth (pointer_of i) = some t := by
  intro t
  induction t with
  | nil =>
    intro i depth h _
    have hi : i = -1 := h
    rw [hi]
    cases depth <;> rfl
  | node v l r ihl ihr =>
    intro i depth h hd
    obtain ⟨h1, h2, h3, h4, h5⟩ := h
    rw [size_node] at hd
    obtain ⟨d, rfl⟩ : ∃ d, depth = d + 1 := ⟨depth - 1, by omega⟩
    have hp : pointer_of i = some i := by
      unfold pointer_of
      rw [if_neg (by omega)]
    rw [hp, tree_at, hmem i h1 h2]
    simp only
    rw [ihl _ d h4 (by omega), ihr _ d h5 (by omega), h3]

/-! ### Tree serializer: the claims -/

/-- C22: for every non-empty binary tree `t` with `n` nodes and every start index
`idx >= 0` with `idx + n <= MAX_NODES`, whatever the array and the memory hold before,
`serializeTree (t, tree_array, idx)` returns an end index, and `deserializeTree` from `idx`
to that end index returns a pointer to a tree with the same shape and the same node values
as `t`: followed to any depth of at least `n`, the pointer denotes exactly `t`, and so it
has the same in-order traversal. -/
theorem serialize_roundtrip (t : BinTree) (tree_array : Int → node2_t) (mem : Int → node_t)
    (idx : Int) (ht : t ≠ BinTree.nil) (h0 : 0 ≤ idx) (hfit : idx + t.size ≤ MAX_NODES) :
    ∃ end_idx array1, serializeTree t tree_array idx = some (end_idx, array1) ∧
      ∃ root mem1, deserializeTree array1 mem idx end_idx = some (root, mem1) ∧
        ∀ depth, t.size ≤ depth →
          tree_at mem1 depth root = some t ∧
          (tree_at mem1 depth root).map printTreeInOrder = some (printTreeInOrder t) := by
  have hsz : ¬ t.size = 0 := by
    cases t with
    | nil => exact absurd rfl ht
    | node v l r => rw [size_node]; omega
  obtain ⟨a1, hser, _, henc⟩ := serializeTree_spec t tree_array idx h0 hfit
  rw [if_neg hsz] at hser henc
  obtain ⟨mem1, hloop, hin, _⟩ := deserialize_loop_spec a1 t.size idx mem h0 hfit
  refine ⟨idx + t.size - 1, a1, hser, some idx, mem1, ?_, ?_⟩
  · unfold deserializeTree
    have hn : (idx + ↑t.size - 1 + 1 - idx).toNat = t.size := by omega
    rw [hn, hloop]
    rfl
  · intro depth hd
    have hp : pointer_of idx = some idx := by
      unfold pointer_of
      rw [if_neg (by omega)]
    have h := tree_at_of_encodes a1 mem1 idx (idx + t.size) h0 hin t idx depth henc hd
    rw [hp] at h
    rw [h]
    exact ⟨rfl, rfl⟩

/-- Witness for C22: the test tree of `main`, serialized at index 0 into a zeroed array and
read back from a zeroed memory. -/
theorem serialize_roundtrip_witness :
    ∃ end_idx array1, serializeTree main_tree zero_array 0 = some (end_idx, array1) ∧
      ∃ root mem1, deserializeTree array1 zero_memory 0 end_idx = some (root, mem1) ∧
        ∀ depth, main_tree.size ≤ depth →
          tree_at mem1 depth root = some main_tree ∧
          (tree_at mem1 depth root).map printTreeInOrder
            = some (printTreeInOrder main_tree) :=
  serialize_roundtrip main_tree zero_array zero_memory 0 (by decide) (by decide) (by decide)

/-- C23 (counterexample): a tree of one node serialized at `idx = 1024 = MAX_NODES`.  The
claim gives the return value 1024 and a write of entry 1024; a `node_array_t` has the
entries `0 .. 1023` only, so the store `tree_array[idx] = node2` is outside the array and
the call has no defined result. -/
theorem serialize_past_end :
    serializeTree (BinTree.node 1 BinTree.nil BinTree.nil) zero_array 1024 = none := by
  rfl

/-- C23 (amended): for every non-empty binary tree `t` with `n` nodes and every
`idx >= 0` with `idx + n <= MAX_NODES`, `serializeTree (t, tree_array, idx)` returns
`idx + n - 1`, leaves every entry outside `idx .. idx + n - 1` unchanged, and writes every
entry inside: those entries are the same whatever the array held before.  So a second tree
serialized at a later start index does not disturb the first.  For the empty tree it
returns `-1` and writes nothing, at any index. -/
theorem serialize_exact (t : BinTree) (tree_array : Int → node2_t) (idx : Int)
    (ht : t ≠ BinTree.nil) (h0 : 0 ≤ idx) (hfit : idx + t.size ≤ MAX_NODES) :
    (∃ array1, serializeTree t tree_array idx = some (idx + t.size - 1, array1) ∧
      (∀ k, k < idx ∨ idx + t.size - 1 < k → array1 k = tree_array k) ∧
      (∀ other, ∃ array2, serializeTree t other idx = some (idx + t.size - 1, array2) ∧
        ∀ k, idx ≤ k → k ≤ idx + t.size - 1 → array2 k = array1 k) ∧
      (∀ (t2 : BinTree) (idx2 : Int), idx + t.size ≤ idx2 → idx2 + t2.size ≤ MAX_NODES →
        ∃ end2 array3, serializeTree t2 array1 idx2 = some (end2, array3) ∧
          ∀ k, idx ≤ k → k ≤ idx + t.size - 1 → array3 k = array1 k)) ∧
    (∀ (a : Int → node2_t) (i : Int), serializeTree BinTree.nil a i = some (-1, a)) := by
  have hsz : ¬ t.size = 0 := by
    cases t with
    | nil => exact absurd rfl ht
    | node v l r => rw [size_node]; omega
  obtain ⟨a1, hser, hframe, _⟩ := serializeTree_spec t tree_array idx h0 hfit
  rw [if_neg hsz] at hser
  refine ⟨⟨a1, hser, fun k hk => hframe k (by omega), ?_, ?_⟩, fun _ _ => rfl⟩
  · intro other
    obtain ⟨a2, hser2, _, _⟩ := serializeTree_spec t other idx h0 hfit
    rw [if_neg hsz] at hser2
    refine ⟨a2, hser2, ?_⟩
    intro k hk1 hk2
    exact serializeTree_agree t other tree_array a2 a1 idx _ _ h0 hfit hser2 hser k hk1
      (by omega)
  · intro t2 idx2 hlater hfit2
    obtain ⟨a3, hser3, hframe3, _⟩ := serializeTree_spec t2 a1 idx2 (by omega) hfit2
    exact ⟨_, a3, hser3, fun k hk1 hk2 => hframe3 k (Or.inl (by omega))⟩

/-- Witness for C23 (amended): the two serializations of `main`; the test tree at index 0
returns 3, and the second copy at index 5 leaves entry 0 as the first wrote it. -/
theorem serialize_exact_witness :
    ∃ array1, serializeTree main_tree zero_array 0
        = some (0 + (main_tree.size : Int) - 1, array1) ∧
      (∀ k, k < 0 ∨ 0 + (main_tree.size : Int) - 1 < k → array1 k = zero_array k) ∧
      ∃ end2 array3, serializeTree main_tree array1 5 = some (end2, array3) ∧
        array3 0 = array1 0 :=
  have h := (serialize_exact main_tree zero_array 0 (by decide) (by decide) (by decide)).1
  h.elim fun array1 h1 =>
    ⟨array1, h1.1, h1.2.1,
      (h1.2.2.2 main_tree 5 (by decide) (by decide)).elim fun end2 h2 =>
        h2.elim fun array3 h3 => ⟨end2, array3, h3.1, h3.2 0 (by decide) (by decide)⟩⟩

end TreeSerializer
